import Mathlib

/-!
Shallow embedding of `src/fspath.rs` (case-insensitive path resolution with a
validating LRU cache) and verification of the specification's claims about it.

Modelling conventions:
* A path segment (`Seg`) is either decodable text (a `String`) or an opaque
  byte sequence (`Seg.raw`), mirroring `OsStr` whose `to_str` succeeds exactly
  on valid UTF-8.
* A path (`FsPath`) is a root flag plus an ordered list of segments, mirroring
  `PathBuf` at the component level.
* The filesystem is a pure value (`FS`): a metadata query returning either
  metadata or an error kind (the code only distinguishes `NotFound` from the
  rest), and a directory enumeration returning either a failure or a list of
  entries, each of which may itself be an error (skipped by the code).
* The process-wide LRU cache is threaded explicitly: `Cache` is a capacity
  plus a recency-ordered association list (most recent first).  `put` inserts
  at the front and truncates to capacity (LRU eviction); `get` moves the found
  entry to the front (recency bump).
* Rust's `str::to_lowercase` is modelled by `strLower` (characterwise
  lowercase); it is used as
  the single, pure, deterministic fold function everywhere, exactly as the
  source uses `to_lowercase` everywhere.
-/

/-- A path segment: decodable text or opaque bytes (`OsStr`). -/
inductive Seg where
  | text (s : String)
  | raw (bytes : List Nat)
deriving DecidableEq, Repr

/-- `OsStr::to_str`: succeeds exactly on decodable segments. -/
def Seg.toStr : Seg → Option String
  | .text s => some s
  | .raw _ => none

/-- Model of `str::to_lowercase`: lowercase every character. -/
def strLower (s : String) : String := ⟨s.data.map Char.toLower⟩

/-- Lowercase fold of a single segment (text segments only are changed). -/
def Seg.lower : Seg → Seg
  | .text s => .text (strLower s)
  | .raw b => .raw b

/-- A path: a root flag and the list of normal components (`PathBuf`). -/
structure FsPath where
  root : Bool
  segs : List Seg
deriving DecidableEq, Repr

/-- `PathBuf::push` of a single (relative) segment. -/
def FsPath.push (p : FsPath) (s : Seg) : FsPath := ⟨p.root, p.segs ++ [s]⟩

/-- `PathBuf::push` of a whole relative path (its list of segments). -/
def FsPath.pushAll (p : FsPath) (l : List Seg) : FsPath := ⟨p.root, p.segs ++ l⟩

/-- `Path::parent`: drops the final segment; `none` when there are no segments. -/
def FsPath.parent (p : FsPath) : Option FsPath :=
  match p.segs with
  | [] => none
  | _ :: _ => some ⟨p.root, p.segs.dropLast⟩

/-- `Path::to_str().is_some()`: the whole path is decodable text. -/
def FsPath.allText (p : FsPath) : Bool := p.segs.all (fun s => (Seg.toStr s).isSome)

/-- `pathbuf_to_lowercase`: lowercase the textual form when the path is
decodable, otherwise return the path unchanged. -/
def pathbuf_to_lowercase (p : FsPath) : FsPath :=
  if p.allText then ⟨p.root, p.segs.map Seg.lower⟩ else p

/-- Error kinds: the code only distinguishes `NotFound` from everything else. -/
inductive ErrKind where
  | notFound
  | permissionDenied
  | other
deriving DecidableEq, Repr

/-- Stand-in for `fs::Metadata` contents. -/
abbrev FMeta := Nat

/-- One `read_dir` entry: a named entry or an entry-level error (skipped). -/
inductive DirEnt where
  | ok (name : Seg)
  | err
deriving DecidableEq, Repr

/-- The filesystem collaborator: metadata queries and directory enumeration. -/
structure FS where
  metadata : FsPath → Except ErrKind FMeta
  readDir : FsPath → Except Unit (List DirEnt)

/-- `Path::exists` / `metadata().is_ok()`. -/
def FS.metaOk (fs : FS) (p : FsPath) : Bool :=
  match fs.metadata p with
  | .ok _ => true
  | .error _ => false

/-- The LRU cache: capacity and a recency-ordered association list from
case-folded path to last known exact path (most recent first). -/
structure Cache where
  cap : Nat
  entries : List (FsPath × FsPath)
deriving DecidableEq, Repr

/-- Remove every pair stored under key `k`. -/
def Cache.eraseKey (l : List (FsPath × FsPath)) (k : FsPath) : List (FsPath × FsPath) :=
  l.filter (fun e => e.1 != k)

/-- First value stored under key `k`, if any (`LruCache` lookup). -/
def Cache.find? (c : Cache) (k : FsPath) : Option FsPath :=
  (c.entries.find? (fun e => e.1 == k)).map (fun e => e.2)

/-- `Cache::insert`: store `path` under its case-folded key, moving it to the
front and evicting the least-recently-used entry beyond capacity. -/
def Cache.insert (c : Cache) (p : FsPath) : Cache :=
  let k := pathbuf_to_lowercase p
  ⟨c.cap, ((k, p) :: Cache.eraseKey c.entries k).take c.cap⟩

/-- `Cache::get`: compute the folded key; on a miss return `none` unchanged;
on a hit re-query metadata for the stored exact path, evicting the entry and
returning `none` on failure, and returning the stored path with the fresh
metadata (entry bumped to the front) on success. -/
def Cache.get (fs : FS) (c : Cache) (p : FsPath) : Option (FsPath × FMeta) × Cache :=
  let k := pathbuf_to_lowercase p
  match Cache.find? c k with
  | none => (none, c)
  | some v =>
    match fs.metadata v with
    | .error _ => (none, ⟨c.cap, Cache.eraseKey c.entries k⟩)
    | .ok m => (some (v, m), ⟨c.cap, (k, v) :: Cache.eraseKey c.entries k⟩)

/-- The scan loop of `lookup`: walk the directory entries, skipping
entry-level errors and non-decodable names, returning the first name whose
lowercase fold equals `filename` (pushed onto `path`, non-terminal); if no
entry matches, return the verbatim candidate `path2`, terminal. -/
def scanDir (path path2 : FsPath) (filename : String) : List DirEnt → FsPath × Bool
  | [] => (path2, true)
  | .err :: rest => scanDir path path2 filename rest
  | .ok name :: rest =>
    match Seg.toStr name with
    | none => scanDir path path2 filename rest
    | some n =>
      if strLower n == filename then (FsPath.push path name, false)
      else scanDir path path2 filename rest

/-- The case-insensitive portion of `lookup` (lines 132-158): fold the
segment (terminal when non-decodable), enumerate the directory (terminal on
failure), then scan. -/
def lookupScan (fs : FS) (path : FsPath) (seg : Seg) (path2 : FsPath) : FsPath × Bool :=
  match Seg.toStr seg with
  | none => (path2, true)
  | some s =>
    match fs.readDir path with
    | .error _ => (path2, true)
    | .ok entries => scanDir path path2 (strLower s) entries

/-- `lookup(path, seg, no_init_check)`: unless the initial check is skipped,
try the segment verbatim (exists: non-terminal; error other than not-found:
terminal); otherwise fall through to the case-insensitive scan. -/
def lookup (fs : FS) (path : FsPath) (seg : Seg) (no_init_check : Bool) : FsPath × Bool :=
  let path2 := FsPath.push path seg
  if !no_init_check then
    match fs.metadata path2 with
    | .ok _ => (path2, false)
    | .error e =>
      if e ≠ ErrKind.notFound then (path2, true)
      else lookupScan fs path seg path2
  else lookupScan fs path seg path2

/-- The path/terminal components of the root walk (lines 92-107), without the
cache: once terminal, remaining segments are appended verbatim; otherwise each
segment goes through `lookup` with the given initial-check flag. -/
def walkPath (fs : FS) (skip : Bool) : FsPath → Bool → List Seg → FsPath × Bool
  | acc, stop, [] => (acc, stop)
  | acc, stop, seg :: rest =>
    if stop then walkPath fs skip (FsPath.push acc seg) stop rest
    else
      let r := lookup fs acc seg skip
      walkPath fs skip r.1 r.2 rest

/-- The root walk of `resolve` (lines 92-107), cache included: when the index
reaches the final segment with resolution still live, the accumulated path is
inserted into the cache before the final `lookup`. -/
def rootWalk (fs : FS) (skip : Bool) (lastseg : Nat) :
    Cache → FsPath → Bool → Nat → List Seg → FsPath × Bool × Cache
  | c, acc, stop, _, [] => (acc, stop, c)
  | c, acc, stop, idx, seg :: rest =>
    if stop then rootWalk fs skip lastseg c (FsPath.push acc seg) stop (idx + 1) rest
    else
      let c1 := if idx == lastseg then Cache.insert c acc else c
      let r := lookup fs acc seg skip
      rootWalk fs skip lastseg c1 r.1 r.2 (idx + 1) rest

/-- The parent-shortcut step of `resolve` (lines 69-79): consult the cache for
the parent; on a miss query the filesystem directly, inserting the parent when
it exists.  Returns the resolved parent, the existence flag, and the cache. -/
def parentLookup (fs : FS) (c : Cache) (par : FsPath) : FsPath × Bool × Cache :=
  match Cache.get fs c par with
  | (some pm, cc) => (pm.1, true, cc)
  | (none, cc) =>
    let ex := FS.metaOk fs par
    (par, ex, if ex then Cache.insert cc par else cc)

/-- A raw client path: a count of leading root markers and the segments. -/
structure RawPath where
  nroots : Nat
  segs : List Seg
deriving DecidableEq, Repr

/-- Parsing the raw bytes as a `Path`: any number of leading root markers
collapses into a single root component. -/
def RawPath.parse (r : RawPath) : FsPath := ⟨r.nroots != 0, r.segs⟩

/-- The root-stripping loop of `resolve` (lines 24-29). -/
def stripLeadingRoots (p : FsPath) : FsPath :=
  if p.root then ⟨false, p.segs⟩ else p

/-- `resolve(base, path, case_insensitive)` with the process-wide cache
threaded explicitly; returns the resolved path and the updated cache. -/
def resolve (fs : FS) (base : FsPath) (r : RawPath) (case_insensitive : Bool)
    (cache : Cache) : FsPath × Cache :=
  let path := stripLeadingRoots (RawPath.parse r)
  if !case_insensitive then (FsPath.pushAll base path.segs, cache) else
  let fullpath := FsPath.pushAll base path.segs
  if !(fullpath.root && fullpath.allText) then (fullpath, cache) else
  match FsPath.parent fullpath with
  | none => (fullpath, cache)
  | some par =>
    match Cache.get fs cache fullpath with
    | (some pm, c1) => (pm.1, c1)
    | (none, c1) =>
      if FS.metaOk fs fullpath then (fullpath, c1) else
      let segs := path.segs
      if hseg : segs = [] then (fullpath, c1) else
      let pec :=
        if segs.length > 1 then parentLookup fs c1 par
        else (par, true, c1)
      if pec.2.1 then
        let r2 := lookup fs pec.1 (segs.getLast hseg) true
        (r2.1, if r2.2 then pec.2.2 else Cache.insert pec.2.2 r2.1)
      else
        let w := rootWalk fs false (segs.length - 1) pec.2.2 base false 0 segs
        (w.1, if w.2.1 then w.2.2 else Cache.insert w.2.2 w.1)

/-- The cache invariant: every stored key is the lowercase fold of its value. -/
def Cache.WF (c : Cache) : Prop :=
  ∀ kv ∈ c.entries, kv.1 = pathbuf_to_lowercase kv.2

/-! ### Basic lemmas about paths, folding and the cache -/

theorem strip_parse (r : RawPath) :
    stripLeadingRoots (RawPath.parse r) = ⟨false, r.segs⟩ := by
  simp only [stripLeadingRoots, RawPath.parse]
  split <;> simp_all

theorem fold_root (p : FsPath) : (pathbuf_to_lowercase p).root = p.root := by
  simp only [pathbuf_to_lowercase]
  split <;> rfl

theorem fold_segs_length (p : FsPath) :
    (pathbuf_to_lowercase p).segs.length = p.segs.length := by
  simp only [pathbuf_to_lowercase]
  split <;> simp

theorem fold_of_allText (p : FsPath) (h : p.allText = true) :
    pathbuf_to_lowercase p = ⟨p.root, p.segs.map Seg.lower⟩ := by
  simp [pathbuf_to_lowercase, h]

theorem allText_of_fold_eq (p q : FsPath) (hq : q.allText = true)
    (h : pathbuf_to_lowercase p = q) : p.allText = true := by
  by_cases hp : p.allText = true
  · exact hp
  · have hid : pathbuf_to_lowercase p = p := by simp [pathbuf_to_lowercase, hp]
    rw [hid] at h
    rw [h]
    exact hq

theorem allText_pushAll (p : FsPath) (l : List Seg) :
    (FsPath.pushAll p l).allText
      = (p.allText && l.all (fun s => (Seg.toStr s).isSome)) := by
  simp [FsPath.pushAll, FsPath.allText]

theorem allText_push (p : FsPath) (s : Seg) :
    (FsPath.push p s).allText = (p.allText && (Seg.toStr s).isSome) := by
  simp [FsPath.push, FsPath.allText]

theorem fold_push_of_allText (p : FsPath) (s : Seg) (hp : p.allText = true)
    (hs : (Seg.toStr s).isSome) :
    pathbuf_to_lowercase (FsPath.push p s)
      = FsPath.push (pathbuf_to_lowercase p) (Seg.lower s) := by
  have hps : (FsPath.push p s).allText = true := by
    simp [allText_push, hp, hs]
  rw [fold_of_allText _ hps, fold_of_allText _ hp]
  simp [FsPath.push]

theorem find?_eraseKey (l : List (FsPath × FsPath)) (k : FsPath) :
    (Cache.eraseKey l k).find? (fun e => e.1 == k) = none := by
  rw [List.find?_eq_none]
  intro x hx
  have := List.of_mem_filter hx
  simpa using this

theorem cache_find?_eraseKey (cap : Nat) (l : List (FsPath × FsPath)) (k : FsPath) :
    Cache.find? ⟨cap, Cache.eraseKey l k⟩ k = none := by
  simp [Cache.find?, find?_eraseKey]

theorem find?_some_mem (c : Cache) (k v : FsPath) (h : Cache.find? c k = some v) :
    (k, v) ∈ c.entries := by
  simp only [Cache.find?, Option.map_eq_some'] at h
  obtain ⟨e, he, hev⟩ := h
  have hk := List.find?_some he
  have hmem := List.mem_of_find?_eq_some he
  have hev2 : e = (k, v) := by
    rcases e with ⟨e1, e2⟩
    simp only [beq_iff_eq] at hk
    simp_all
  rwa [hev2] at hmem

theorem eraseKey_subset (l : List (FsPath × FsPath)) (k : FsPath) :
    Cache.eraseKey l k ⊆ l := by
  intro x hx
  exact List.mem_of_mem_filter hx

/-! ### C4 and C8: the cache component -/

/-- C4: `Cache.get` computes the case-folded key; a miss returns none; a hit
re-queries metadata for the stored exact path, evicting the entry (gone
afterwards) and returning none on failure, and returning the stored exact path
with the freshly fetched metadata, recency bumped to the front, on success. -/
theorem cache_get_spec (fs : FS) (c : Cache) (p : FsPath) :
    (Cache.find? c (pathbuf_to_lowercase p) = none ∧ Cache.get fs c p = (none, c))
    ∨ (∃ v e, Cache.find? c (pathbuf_to_lowercase p) = some v
        ∧ fs.metadata v = .error e
        ∧ Cache.get fs c p
            = (none, ⟨c.cap, Cache.eraseKey c.entries (pathbuf_to_lowercase p)⟩)
        ∧ Cache.find? (Cache.get fs c p).2 (pathbuf_to_lowercase p) = none)
    ∨ (∃ v m, Cache.find? c (pathbuf_to_lowercase p) = some v
        ∧ fs.metadata v = .ok m
        ∧ Cache.get fs c p
            = (some (v, m),
               ⟨c.cap, (pathbuf_to_lowercase p, v)
                  :: Cache.eraseKey c.entries (pathbuf_to_lowercase p)⟩)) := by
  rcases hf : Cache.find? c (pathbuf_to_lowercase p) with _ | v
  · exact Or.inl ⟨rfl, by simp [Cache.get, hf]⟩
  · rcases hm : fs.metadata v with e | m
    · refine Or.inr (Or.inl ⟨v, e, rfl, hm, by simp [Cache.get, hf, hm], ?_⟩)
      have hg : Cache.get fs c p
          = (none, ⟨c.cap, Cache.eraseKey c.entries (pathbuf_to_lowercase p)⟩) := by
        simp [Cache.get, hf, hm]
      rw [hg]
      exact cache_find?_eraseKey _ _ _
    · exact Or.inr (Or.inr ⟨v, m, rfl, hm, by simp [Cache.get, hf, hm]⟩)

theorem wf_empty (n : Nat) : Cache.WF ⟨n, []⟩ := by
  intro kv hkv
  simp at hkv

theorem wf_insert (c : Cache) (q : FsPath) (h : Cache.WF c) :
    Cache.WF (Cache.insert c q) := by
  intro kv hkv
  simp only [Cache.insert] at hkv
  have hkv2 := List.take_subset _ _ hkv
  rcases List.mem_cons.mp hkv2 with hh | ht
  · subst hh; rfl
  · exact h kv (eraseKey_subset _ _ ht)

theorem wf_get (fs : FS) (c : Cache) (p : FsPath) (h : Cache.WF c) :
    Cache.WF (Cache.get fs c p).2 := by
  rcases hf : Cache.find? c (pathbuf_to_lowercase p) with _ | v
  · simpa [Cache.get, hf] using h
  · have hkv : (pathbuf_to_lowercase p, v) ∈ c.entries := find?_some_mem _ _ _ hf
    have hkey : pathbuf_to_lowercase p = pathbuf_to_lowercase v := h _ hkv
    rcases hm : fs.metadata v with e | m
    · intro kv hkv2
      simp only [Cache.get, hf, hm] at hkv2
      exact h kv (eraseKey_subset _ _ hkv2)
    · intro kv hkv2
      simp only [Cache.get, hf, hm] at hkv2
      rcases List.mem_cons.mp hkv2 with hh | ht
      · subst hh; exact hkey
      · exact h kv (eraseKey_subset _ _ ht)

/-- C8: keys are always the lowercase fold of their values: the empty cache
satisfies the invariant and both `insert` and `get` preserve it. -/
theorem cache_key_fold_invariant (fs : FS) (c : Cache) (p q : FsPath) (n : Nat)
    (h : Cache.WF c) :
    Cache.WF ⟨n, []⟩ ∧ Cache.WF (Cache.insert c q) ∧ Cache.WF (Cache.get fs c p).2 :=
  ⟨wf_empty n, wf_insert c q h, wf_get fs c p h⟩

/-! ### Lemmas about `lookup` and the root walk -/

theorem Seg.toStr_some {s : Seg} {str : String} (h : Seg.toStr s = some str) :
    s = .text str := by
  cases s <;> simp_all [Seg.toStr]

theorem scanDir_shape (path path2 : FsPath) (fn : String) (l : List DirEnt) :
    scanDir path path2 fn l = (path2, true)
    ∨ ∃ n, strLower n = fn
        ∧ scanDir path path2 fn l = (FsPath.push path (Seg.text n), false) := by
  induction l with
  | nil => exact Or.inl rfl
  | cons e rest ih =>
    cases e with
    | err => simpa [scanDir] using ih
    | ok name =>
      cases hn : Seg.toStr name with
      | none => simpa [scanDir, hn] using ih
      | some n =>
        by_cases h : strLower n = fn
        · refine Or.inr ⟨n, h, ?_⟩
          rw [Seg.toStr_some hn]
          simp [scanDir, Seg.toStr, h]
        · have hb : (strLower n == fn) = false := by simp [h]
          simpa [scanDir, hn, hb] using ih

theorem lookup_shape (fs : FS) (p : FsPath) (s : Seg) (b : Bool) :
    (∃ st, lookup fs p s b = (FsPath.push p s, st))
    ∨ (∃ str n, s = Seg.text str ∧ strLower n = strLower str
        ∧ lookup fs p s b = (FsPath.push p (Seg.text n), false)) := by
  have hscan : lookupScan fs p s (FsPath.push p s) = (FsPath.push p s, true)
      ∨ (∃ str n, s = Seg.text str ∧ strLower n = strLower str
          ∧ lookupScan fs p s (FsPath.push p s) = (FsPath.push p (Seg.text n), false)) := by
    cases hs : Seg.toStr s with
    | none => exact Or.inl (by simp [lookupScan, hs])
    | some str =>
      cases hd : fs.readDir p with
      | error u => exact Or.inl (by simp [lookupScan, hs, hd])
      | ok entries =>
        rcases scanDir_shape p (FsPath.push p s) (strLower str) entries with h | ⟨n, hn, h⟩
        · exact Or.inl (by simp [lookupScan, hs, hd, h])
        · exact Or.inr ⟨str, n, Seg.toStr_some hs, hn, by simp [lookupScan, hs, hd, h]⟩
  cases b with
  | true =>
    rcases hscan with h | ⟨str, n, hs, hn, h⟩
    · exact Or.inl ⟨true, by simpa [lookup] using h⟩
    · exact Or.inr ⟨str, n, hs, hn, by simpa [lookup] using h⟩
  | false =>
    cases hm : fs.metadata (FsPath.push p s) with
    | ok m => exact Or.inl ⟨false, by simp [lookup, hm]⟩
    | error e =>
      by_cases he : e = ErrKind.notFound
      · subst he
        rcases hscan with h | ⟨str, n, hs, hn, h⟩
        · exact Or.inl ⟨true, by simpa [lookup, hm] using h⟩
        · exact Or.inr ⟨str, n, hs, hn, by simpa [lookup, hm] using h⟩
      · exact Or.inl ⟨true, by simp [lookup, hm, he]⟩

theorem lookup_fst_len (fs : FS) (p : FsPath) (s : Seg) (b : Bool) :
    (lookup fs p s b).1.segs.length = p.segs.length + 1 := by
  rcases lookup_shape fs p s b with ⟨st, h⟩ | ⟨str, n, hs, hn, h⟩ <;>
    rw [h] <;> simp [FsPath.push]

theorem lookup_fst_root (fs : FS) (p : FsPath) (s : Seg) (b : Bool) :
    (lookup fs p s b).1.root = p.root := by
  rcases lookup_shape fs p s b with ⟨st, h⟩ | ⟨str, n, hs, hn, h⟩ <;>
    rw [h] <;> simp [FsPath.push]

theorem lookup_fst_lower (fs : FS) (p : FsPath) (str : String) (b : Bool) :
    (lookup fs p (Seg.text str) b).1.segs.map Seg.lower
      = p.segs.map Seg.lower ++ [Seg.text (strLower str)] := by
  rcases lookup_shape fs p (Seg.text str) b with ⟨st, h⟩ | ⟨str2, n, hs, hn, h⟩
  · rw [h]; simp [FsPath.push, Seg.lower]
  · have hss : str2 = str := by injection hs with h2; exact h2.symm
    subst hss
    rw [h]
    simp [FsPath.push, Seg.lower, hn]

theorem lookup_fst_allText (fs : FS) (p : FsPath) (str : String) (b : Bool)
    (hp : p.allText = true) :
    (lookup fs p (Seg.text str) b).1.allText = true := by
  rcases lookup_shape fs p (Seg.text str) b with ⟨st, h⟩ | ⟨str2, n, hs, hn, h⟩ <;>
    rw [h] <;> simp [allText_push, hp, Seg.toStr]

theorem lookup_notFound_skip (fs : FS) (p : FsPath) (s : Seg)
    (h : fs.metadata (FsPath.push p s) = .error .notFound) :
    lookup fs p s false = lookup fs p s true := by
  simp [lookup, h]

theorem walkPath_stop (fs : FS) (sk : Bool) (acc : FsPath) (l : List Seg) :
    walkPath fs sk acc true l = (FsPath.pushAll acc l, true) := by
  induction l generalizing acc with
  | nil => simp [walkPath, FsPath.pushAll]
  | cons s rest ih => simp [walkPath, ih, FsPath.push, FsPath.pushAll]

theorem walkPath_append (fs : FS) (sk : Bool) (acc : FsPath) (st : Bool)
    (l1 l2 : List Seg) :
    walkPath fs sk acc st (l1 ++ l2)
      = walkPath fs sk (walkPath fs sk acc st l1).1 (walkPath fs sk acc st l1).2 l2 := by
  induction l1 generalizing acc st with
  | nil => rfl
  | cons s rest ih =>
    cases st <;> simp [walkPath, ih]

theorem rootWalk_path (fs : FS) (sk : Bool) (ls : Nat) (c : Cache) (acc : FsPath)
    (st : Bool) (i : Nat) (l : List Seg) :
    (rootWalk fs sk ls c acc st i l).1 = (walkPath fs sk acc st l).1
    ∧ (rootWalk fs sk ls c acc st i l).2.1 = (walkPath fs sk acc st l).2 := by
  induction l generalizing c acc st i with
  | nil => exact ⟨rfl, rfl⟩
  | cons s rest ih =>
    cases st <;> simp [rootWalk, walkPath, ih]

theorem rootWalk_stop (fs : FS) (sk : Bool) (ls : Nat) (c : Cache) (acc : FsPath)
    (i : Nat) (l : List Seg) :
    rootWalk fs sk ls c acc true i l = (FsPath.pushAll acc l, true, c) := by
  induction l generalizing acc i with
  | nil => simp [rootWalk, FsPath.pushAll]
  | cons s rest ih => simp [rootWalk, ih, FsPath.push, FsPath.pushAll]

theorem rootWalk_append (fs : FS) (sk : Bool) (ls : Nat) (c : Cache) (acc : FsPath)
    (st : Bool) (i : Nat) (l1 l2 : List Seg) :
    rootWalk fs sk ls c acc st i (l1 ++ l2)
      = rootWalk fs sk ls (rootWalk fs sk ls c acc st i l1).2.2
          (rootWalk fs sk ls c acc st i l1).1 (rootWalk fs sk ls c acc st i l1).2.1
          (i + l1.length) l2 := by
  induction l1 generalizing c acc st i with
  | nil => rfl
  | cons s rest ih =>
    have harith : i + 1 + rest.length = i + (rest.length + 1) := by omega
    cases st <;> simp [rootWalk, ih, harith]

theorem rootWalk_cache_below (fs : FS) (sk : Bool) (ls : Nat) (c : Cache)
    (acc : FsPath) (st : Bool) (i : Nat) (l : List Seg) (h : i + l.length ≤ ls) :
    (rootWalk fs sk ls c acc st i l).2.2 = c := by
  induction l generalizing c acc st i with
  | nil => rfl
  | cons s rest ih =>
    have hlen : i + (rest.length + 1) ≤ ls := by simpa using h
    have hi : (i == ls) = false := by
      simp only [beq_eq_false_iff_ne, ne_eq]
      omega
    have hrec : i + 1 + rest.length ≤ ls := by omega
    cases st <;> simp [rootWalk, hi, ih _ _ _ _ hrec]

theorem walkPath_fst_len (fs : FS) (sk : Bool) (acc : FsPath) (st : Bool)
    (l : List Seg) :
    (walkPath fs sk acc st l).1.segs.length = acc.segs.length + l.length := by
  induction l generalizing acc st with
  | nil => simp [walkPath]
  | cons s rest ih =>
    cases st with
    | true =>
      have := ih (FsPath.push acc s) true
      simp only [walkPath, if_pos] at this ⊢
      rw [this]
      simp [FsPath.push]
      omega
    | false =>
      have := ih (lookup fs acc s sk).1 (lookup fs acc s sk).2
      simp only [walkPath, Bool.false_eq_true, if_false] at this ⊢
      rw [this, lookup_fst_len]
      simp only [List.length_cons]
      omega

theorem FsPath.mk_root (a : Bool) (b : List Seg) : (FsPath.mk a b).root = a := rfl

theorem FsPath.mk_segs (a : Bool) (b : List Seg) : (FsPath.mk a b).segs = b := rfl

theorem walkPath_fst_root (fs : FS) (sk : Bool) (acc : FsPath) (st : Bool)
    (l : List Seg) : (walkPath fs sk acc st l).1.root = acc.root := by
  induction l generalizing acc st with
  | nil => simp [walkPath]
  | cons s rest ih =>
    cases st with
    | true =>
      have := ih (FsPath.push acc s) true
      simp only [walkPath, if_pos] at this ⊢
      rw [this]
      rfl
    | false =>
      have := ih (lookup fs acc s sk).1 (lookup fs acc s sk).2
      simp only [walkPath, Bool.false_eq_true, if_false] at this ⊢
      rw [this, lookup_fst_root]

theorem walkPath_fst_lower (fs : FS) (sk : Bool) (acc : FsPath) (st : Bool)
    (l : List Seg) (hl : l.all (fun s => (Seg.toStr s).isSome) = true) :
    (walkPath fs sk acc st l).1.segs.map Seg.lower = (acc.segs ++ l).map Seg.lower := by
  induction l generalizing acc st with
  | nil => simp [walkPath]
  | cons s rest ih =>
    simp only [List.all_cons, Bool.and_eq_true] at hl
    obtain ⟨hs, hrest⟩ := hl
    obtain ⟨str, rfl⟩ : ∃ str, s = Seg.text str := by
      cases s with
      | text str => exact ⟨str, rfl⟩
      | raw b => simp [Seg.toStr] at hs
    cases st with
    | true =>
      rw [walkPath_stop]
      simp [FsPath.pushAll]
    | false =>
      simp only [walkPath, Bool.false_eq_true, if_false]
      rw [ih _ _ hrest]
      simp only [List.map_append, lookup_fst_lower]
      simp [Seg.lower]

theorem walkPath_fst_allText (fs : FS) (sk : Bool) (acc : FsPath) (st : Bool)
    (l : List Seg) (hacc : acc.allText = true)
    (hl : l.all (fun s => (Seg.toStr s).isSome) = true) :
    (walkPath fs sk acc st l).1.allText = true := by
  induction l generalizing acc st with
  | nil => simpa [walkPath] using hacc
  | cons s rest ih =>
    simp only [List.all_cons, Bool.and_eq_true] at hl
    obtain ⟨hs, hrest⟩ := hl
    obtain ⟨str, rfl⟩ : ∃ str, s = Seg.text str := by
      cases s with
      | text str => exact ⟨str, rfl⟩
      | raw b => simp [Seg.toStr] at hs
    cases st with
    | true =>
      rw [walkPath_stop]
      simp only [allText_pushAll, hacc, Bool.true_and, List.all_cons, Bool.and_eq_true]
      exact ⟨hs, hrest⟩
    | false =>
      have hn := lookup_fst_allText fs acc str sk hacc
      have := ih (lookup fs acc (Seg.text str) sk).1 (lookup fs acc (Seg.text str) sk).2 hn hrest
      simp only [walkPath, Bool.false_eq_true, if_false] at this ⊢
      exact this

/-! ### Branch-by-branch characterization of `resolve` -/

theorem resolve_early (fs : FS) (base : FsPath) (r : RawPath) (c : Cache)
    (h : ((FsPath.pushAll base r.segs).root && (FsPath.pushAll base r.segs).allText) = false) :
    resolve fs base r true c = (FsPath.pushAll base r.segs, c) := by
  simp only [resolve, strip_parse, FsPath.mk_segs, h]
  simp

theorem resolve_noparent (fs : FS) (base : FsPath) (r : RawPath) (c : Cache)
    (hpar : FsPath.parent (FsPath.pushAll base r.segs) = none) :
    resolve fs base r true c = (FsPath.pushAll base r.segs, c) := by
  simp only [resolve, strip_parse, FsPath.mk_segs, hpar]
  split <;> simp

theorem resolve_hit (fs : FS) (base : FsPath) (r : RawPath) (c c1 : Cache)
    (par v : FsPath) (m : FMeta)
    (hroot : (FsPath.pushAll base r.segs).root = true)
    (htext : (FsPath.pushAll base r.segs).allText = true)
    (hpar : FsPath.parent (FsPath.pushAll base r.segs) = some par)
    (hget : Cache.get fs c (FsPath.pushAll base r.segs) = (some (v, m), c1)) :
    resolve fs base r true c = (v, c1) := by
  simp only [resolve, strip_parse, FsPath.mk_segs, hroot, htext, hpar, hget]
  simp

theorem resolve_direct (fs : FS) (base : FsPath) (r : RawPath) (c c1 : Cache)
    (par : FsPath)
    (hroot : (FsPath.pushAll base r.segs).root = true)
    (htext : (FsPath.pushAll base r.segs).allText = true)
    (hpar : FsPath.parent (FsPath.pushAll base r.segs) = some par)
    (hget : Cache.get fs c (FsPath.pushAll base r.segs) = (none, c1))
    (hex : FS.metaOk fs (FsPath.pushAll base r.segs) = true) :
    resolve fs base r true c = (FsPath.pushAll base r.segs, c1) := by
  simp only [resolve, strip_parse, FsPath.mk_segs, hroot, htext, hpar, hget, hex]
  simp

theorem resolve_noseg (fs : FS) (base : FsPath) (r : RawPath) (c c1 : Cache)
    (par : FsPath)
    (hroot : (FsPath.pushAll base r.segs).root = true)
    (htext : (FsPath.pushAll base r.segs).allText = true)
    (hpar : FsPath.parent (FsPath.pushAll base r.segs) = some par)
    (hget : Cache.get fs c (FsPath.pushAll base r.segs) = (none, c1))
    (hex : FS.metaOk fs (FsPath.pushAll base r.segs) = false)
    (hseg : r.segs = []) :
    resolve fs base r true c = (FsPath.pushAll base r.segs, c1) := by
  rw [hseg] at hroot htext hpar hget hex
  simp only [resolve, strip_parse, FsPath.mk_segs, hseg, hroot, htext, hpar, hget, hex]
  simp

theorem resolve_parent_branch (fs : FS) (base : FsPath) (r : RawPath) (c c1 : Cache)
    (par : FsPath) (le : Seg)
    (hroot : (FsPath.pushAll base r.segs).root = true)
    (htext : (FsPath.pushAll base r.segs).allText = true)
    (hpar : FsPath.parent (FsPath.pushAll base r.segs) = some par)
    (hget : Cache.get fs c (FsPath.pushAll base r.segs) = (none, c1))
    (hex : FS.metaOk fs (FsPath.pushAll base r.segs) = false)
    (hlen : 1 < r.segs.length)
    (hpe : (parentLookup fs c1 par).2.1 = true)
    (hlast : r.segs.getLast? = some le) :
    resolve fs base r true c
      = ((lookup fs (parentLookup fs c1 par).1 le true).1,
         if (lookup fs (parentLookup fs c1 par).1 le true).2
         then (parentLookup fs c1 par).2.2
         else Cache.insert (parentLookup fs c1 par).2.2
                (lookup fs (parentLookup fs c1 par).1 le true).1) := by
  have hne : r.segs ≠ [] := by
    intro hh
    rw [hh] at hlen
    simp at hlen
  have hlast2 : r.segs.getLast hne = le := by
    rw [List.getLast?_eq_getLast r.segs hne] at hlast
    injection hlast
  simp only [resolve, strip_parse, FsPath.mk_segs, hroot, htext, hpar, hget, hex]
  rw [dif_neg hne]
  rw [if_pos hlen, hlast2]
  simp [hpe]

theorem resolve_single_seg (fs : FS) (base : FsPath) (r : RawPath) (c c1 : Cache)
    (par : FsPath) (le : Seg)
    (hroot : (FsPath.pushAll base r.segs).root = true)
    (htext : (FsPath.pushAll base r.segs).allText = true)
    (hpar : FsPath.parent (FsPath.pushAll base r.segs) = some par)
    (hget : Cache.get fs c (FsPath.pushAll base r.segs) = (none, c1))
    (hex : FS.metaOk fs (FsPath.pushAll base r.segs) = false)
    (hlen : r.segs.length = 1)
    (hlast : r.segs.getLast? = some le) :
    resolve fs base r true c
      = ((lookup fs par le true).1,
         if (lookup fs par le true).2 then c1
         else Cache.insert c1 (lookup fs par le true).1) := by
  have hne : r.segs ≠ [] := by
    intro hh
    rw [hh] at hlen
    simp at hlen
  have hlast2 : r.segs.getLast hne = le := by
    rw [List.getLast?_eq_getLast r.segs hne] at hlast
    injection hlast
  have hnlt : ¬(r.segs.length > 1) := by omega
  simp only [resolve, strip_parse, FsPath.mk_segs, hroot, htext, hpar, hget, hex]
  rw [dif_neg hne]
  rw [if_neg hnlt, hlast2]
  simp

theorem resolve_walk_branch (fs : FS) (base : FsPath) (r : RawPath) (c c1 : Cache)
    (par : FsPath)
    (hroot : (FsPath.pushAll base r.segs).root = true)
    (htext : (FsPath.pushAll base r.segs).allText = true)
    (hpar : FsPath.parent (FsPath.pushAll base r.segs) = some par)
    (hget : Cache.get fs c (FsPath.pushAll base r.segs) = (none, c1))
    (hex : FS.metaOk fs (FsPath.pushAll base r.segs) = false)
    (hlen : 1 < r.segs.length)
    (hpe : (parentLookup fs c1 par).2.1 = false) :
    resolve fs base r true c
      = ((rootWalk fs false (r.segs.length - 1) (parentLookup fs c1 par).2.2
            base false 0 r.segs).1,
         if (rootWalk fs false (r.segs.length - 1) (parentLookup fs c1 par).2.2
              base false 0 r.segs).2.1
         then (rootWalk fs false (r.segs.length - 1) (parentLookup fs c1 par).2.2
                base false 0 r.segs).2.2
         else Cache.insert
                (rootWalk fs false (r.segs.length - 1) (parentLookup fs c1 par).2.2
                  base false 0 r.segs).2.2
                (rootWalk fs false (r.segs.length - 1) (parentLookup fs c1 par).2.2
                  base false 0 r.segs).1) := by
  have hne : r.segs ≠ [] := by
    intro hh
    rw [hh] at hlen
    simp at hlen
  simp only [resolve, strip_parse, FsPath.mk_segs, hroot, htext, hpar, hget, hex]
  rw [dif_neg hne]
  rw [if_pos hlen]
  simp [hpe]

/-! ### Concrete scenarios used by counterexamples and witnesses -/

/-- Rooted path literal with all-text segments. -/
def pathOf (l : List String) : FsPath := ⟨true, l.map Seg.text⟩

/-- Scenario: `/b/D` exists on disk and contains `F`; `/b/D/f` also exists;
the cache maps the folded parent `/b/d` to `/b/D`. -/
def fsParent : FS where
  metadata := fun p =>
    if p = pathOf ["b", "D"] then .ok 0
    else if p = pathOf ["b", "D", "f"] then .ok 0
    else .error .notFound
  readDir := fun p =>
    if p = pathOf ["b", "D"] then .ok [.ok (Seg.text "F")]
    else .error ()

def cacheParent : Cache := ⟨1024, [(pathOf ["b", "d"], pathOf ["b", "D"])]⟩

/-- Scenario: `/b` contains `C`; `/b/C` exists and contains `D`; querying
metadata of `/b/C/d` fails with a permission error; `/b/c` does not exist. -/
def fsWalk : FS where
  metadata := fun p =>
    if p = pathOf ["b", "C"] then .ok 0
    else if p = pathOf ["b", "C", "d"] then .error .permissionDenied
    else .error .notFound
  readDir := fun p =>
    if p = pathOf ["b"] then .ok [.ok (Seg.text "C")]
    else if p = pathOf ["b", "C"] then .ok [.ok (Seg.text "D")]
    else .error ()

/-- Scenario: both `/b/f` and `/b/F` exist on disk; the cache maps the folded
path `/b/f` to the case variant `/b/F`. -/
def fsExact : FS where
  metadata := fun p =>
    if p = pathOf ["b", "f"] ∨ p = pathOf ["b", "F"] then .ok 0
    else .error .notFound
  readDir := fun _ => .error ()

def cacheExact : Cache := ⟨1024, [(pathOf ["b", "f"], pathOf ["b", "F"])]⟩

/-! ### C6, C9: pass-through and the initial exact check -/

/-- C6: with case-insensitivity disabled, `resolve` returns `base` joined with
the root-stripped raw path, for every filesystem (zero filesystem access) and
with the cache unchanged; and, for either mode, any number of leading root
markers resolves identically to the stripped form. -/
theorem passthrough_and_root_stripping (fs fs2 : FS) (base : FsPath) (r : RawPath)
    (c c2 : Cache) (ci : Bool) (n : Nat) :
    resolve fs base r false c = (FsPath.pushAll base r.segs, c)
    ∧ resolve fs2 base ⟨n, r.segs⟩ ci c2 = resolve fs2 base ⟨0, r.segs⟩ ci c2 := by
  constructor
  · simp [resolve, strip_parse]
  · have h1 : stripLeadingRoots (RawPath.parse ⟨n, r.segs⟩) = ⟨false, r.segs⟩ :=
      strip_parse _
    have h2 : stripLeadingRoots (RawPath.parse ⟨0, r.segs⟩) = ⟨false, r.segs⟩ :=
      strip_parse _
    simp only [resolve, h1, h2]

/-- C9: with the initial check enabled, `lookup` returns the verbatim
candidate non-terminally when its metadata query succeeds; on any error other
than not-found it returns the verbatim candidate terminally, independently of
the directory enumeration; only a not-found error proceeds to the
case-insensitive scan (where it agrees with the skip-check path). -/
theorem lookup_initial_check_spec (fs : FS) (dir : FsPath) (s : Seg) :
    (∃ m, fs.metadata (FsPath.push dir s) = .ok m
        ∧ lookup fs dir s false = (FsPath.push dir s, false))
    ∨ (∃ e, fs.metadata (FsPath.push dir s) = .error e ∧ e ≠ ErrKind.notFound
        ∧ ∀ rd, lookup ⟨fs.metadata, rd⟩ dir s false = (FsPath.push dir s, true))
    ∨ (fs.metadata (FsPath.push dir s) = .error .notFound
        ∧ lookup fs dir s false = lookup fs dir s true) := by
  cases hm : fs.metadata (FsPath.push dir s) with
  | ok m => exact Or.inl ⟨m, rfl, by simp [lookup, hm]⟩
  | error e =>
    by_cases he : e = ErrKind.notFound
    · subst he
      exact Or.inr (Or.inr ⟨rfl, lookup_notFound_skip fs dir s hm⟩)
    · exact Or.inr (Or.inl ⟨e, rfl, he, fun rd => by simp [lookup, hm, he]⟩)

/-! ### C1: the parent-shortcut lookup and its initial-check flag -/

/-- C1 counterexample: in the parent-shortcut branch the code returns the
scan's match (`/b/D/F`), not the candidate of a lookup with the initial
exact-match check enabled (which would be `/b/D/f`, since `/b/D/f` exists). -/
theorem parent_shortcut_initial_check_refuted :
    (resolve fsParent (pathOf ["b"]) ⟨0, [Seg.text "d", Seg.text "f"]⟩ true
        cacheParent).1
      = pathOf ["b", "D", "F"]
    ∧ lookup fsParent (pathOf ["b", "D"]) (Seg.text "f") false
      = (pathOf ["b", "D", "f"], false)
    ∧ pathOf ["b", "D", "F"] ≠ pathOf ["b", "D", "f"] := by
  refine ⟨by decide, by decide, by decide⟩

/-- C1 amended: when `resolve(base, raw, true)` reaches the parent-shortcut
step with more than one segment and an existing parent, it performs a single
`lookup` of the final segment inside the resolved parent with the initial
exact-match check SKIPPED (`no_init_check = true`); if that lookup is
non-terminal the result is inserted into the cache, and the lookup's candidate
path is returned regardless of terminal status. -/
theorem parent_shortcut_skips_initial_check (fs : FS) (base : FsPath) (r : RawPath)
    (c c1 : Cache) (par : FsPath) (le : Seg)
    (hroot : (FsPath.pushAll base r.segs).root = true)
    (htext : (FsPath.pushAll base r.segs).allText = true)
    (hpar : FsPath.parent (FsPath.pushAll base r.segs) = some par)
    (hget : Cache.get fs c (FsPath.pushAll base r.segs) = (none, c1))
    (hex : FS.metaOk fs (FsPath.pushAll base r.segs) = false)
    (hlen : 1 < r.segs.length)
    (hpe : (parentLookup fs c1 par).2.1 = true)
    (hlast : r.segs.getLast? = some le) :
    resolve fs base r true c
      = ((lookup fs (parentLookup fs c1 par).1 le true).1,
         if (lookup fs (parentLookup fs c1 par).1 le true).2
         then (parentLookup fs c1 par).2.2
         else Cache.insert (parentLookup fs c1 par).2.2
                (lookup fs (parentLookup fs c1 par).1 le true).1) :=
  resolve_parent_branch fs base r c c1 par le hroot htext hpar hget hex hlen hpe hlast

/-- C1 witness: the amended claim at the concrete parent-shortcut scenario. -/
theorem parent_shortcut_skips_initial_check_inst :
    resolve fsParent (pathOf ["b"]) ⟨0, [Seg.text "d", Seg.text "f"]⟩ true cacheParent
      = ((lookup fsParent (parentLookup fsParent cacheParent (pathOf ["b", "d"])).1
            (Seg.text "f") true).1,
         if (lookup fsParent (parentLookup fsParent cacheParent (pathOf ["b", "d"])).1
              (Seg.text "f") true).2
         then (parentLookup fsParent cacheParent (pathOf ["b", "d"])).2.2
         else Cache.insert (parentLookup fsParent cacheParent (pathOf ["b", "d"])).2.2
                (lookup fsParent (parentLookup fsParent cacheParent (pathOf ["b", "d"])).1
                  (Seg.text "f") true).1) :=
  parent_shortcut_skips_initial_check fsParent (pathOf ["b"])
    ⟨0, [Seg.text "d", Seg.text "f"]⟩ cacheParent cacheParent (pathOf ["b", "d"])
    (Seg.text "f") (by decide) (by decide) (by decide) (by decide) (by decide)
    (by decide) (by decide) (by decide)

/-! ### C2: the root walk and its initial-check flag -/

/-- C2 counterexample: the root walk does not request the scan path: at the
final segment the code's walk performs the initial exact check, hits a
permission error on `/b/C/d`, and returns `/b/C/d` terminally, while a walk
with the initial check disabled would scan `/b/C` and return `/b/C/D`. -/
theorem root_walk_scan_request_refuted :
    (resolve fsWalk (pathOf ["b"]) ⟨0, [Seg.text "c", Seg.text "d"]⟩ true
        ⟨1024, []⟩).1
      = pathOf ["b", "C", "d"]
    ∧ (rootWalk fsWalk true 1 ⟨1024, []⟩ (pathOf ["b"]) false 0
        [Seg.text "c", Seg.text "d"]).1
      = pathOf ["b", "C", "D"]
    ∧ pathOf ["b", "C", "d"] ≠ pathOf ["b", "C", "D"] := by
  refine ⟨by decide, by decide, by decide⟩

/-- C2 amended: during the root walk of `resolve`, every segment processed
while resolution has not gone terminal is looked up against the accumulated
path with the initial exact-match check ENABLED (`no_init_check = false`),
and the accumulated path and terminal flag are updated from the result. -/
theorem root_walk_uses_initial_check (fs : FS) (base : FsPath) (r : RawPath)
    (c c1 : Cache) (par : FsPath)
    (hroot : (FsPath.pushAll base r.segs).root = true)
    (htext : (FsPath.pushAll base r.segs).allText = true)
    (hpar : FsPath.parent (FsPath.pushAll base r.segs) = some par)
    (hget : Cache.get fs c (FsPath.pushAll base r.segs) = (none, c1))
    (hex : FS.metaOk fs (FsPath.pushAll base r.segs) = false)
    (hlen : 1 < r.segs.length)
    (hpe : (parentLookup fs c1 par).2.1 = false) :
    resolve fs base r true c
      = ((rootWalk fs false (r.segs.length - 1) (parentLookup fs c1 par).2.2
            base false 0 r.segs).1,
         if (rootWalk fs false (r.segs.length - 1) (parentLookup fs c1 par).2.2
              base false 0 r.segs).2.1
         then (rootWalk fs false (r.segs.length - 1) (parentLookup fs c1 par).2.2
                base false 0 r.segs).2.2
         else Cache.insert
                (rootWalk fs false (r.segs.length - 1) (parentLookup fs c1 par).2.2
                  base false 0 r.segs).2.2
                (rootWalk fs false (r.segs.length - 1) (parentLookup fs c1 par).2.2
                  base false 0 r.segs).1) :=
  resolve_walk_branch fs base r c c1 par hroot htext hpar hget hex hlen hpe

/-- C2 witness: the amended claim at the concrete root-walk scenario. -/
theorem root_walk_uses_initial_check_inst :
    resolve fsWalk (pathOf ["b"]) ⟨0, [Seg.text "c", Seg.text "d"]⟩ true ⟨1024, []⟩
      = ((rootWalk fsWalk false 1
            (parentLookup fsWalk ⟨1024, []⟩ (pathOf ["b", "c"])).2.2
            (pathOf ["b"]) false 0 [Seg.text "c", Seg.text "d"]).1,
         if (rootWalk fsWalk false 1
              (parentLookup fsWalk ⟨1024, []⟩ (pathOf ["b", "c"])).2.2
              (pathOf ["b"]) false 0 [Seg.text "c", Seg.text "d"]).2.1
         then (rootWalk fsWalk false 1
                (parentLookup fsWalk ⟨1024, []⟩ (pathOf ["b", "c"])).2.2
                (pathOf ["b"]) false 0 [Seg.text "c", Seg.text "d"]).2.2
         else Cache.insert
                (rootWalk fsWalk false 1
                  (parentLookup fsWalk ⟨1024, []⟩ (pathOf ["b", "c"])).2.2
                  (pathOf ["b"]) false 0 [Seg.text "c", Seg.text "d"]).2.2
                (rootWalk fsWalk false 1
                  (parentLookup fsWalk ⟨1024, []⟩ (pathOf ["b", "c"])).2.2
                  (pathOf ["b"]) false 0 [Seg.text "c", Seg.text "d"]).1) :=
  root_walk_uses_initial_check fsWalk (pathOf ["b"])
    ⟨0, [Seg.text "c", Seg.text "d"]⟩ ⟨1024, []⟩ ⟨1024, []⟩ (pathOf ["b", "c"])
    (by decide) (by decide) (by decide) (by decide) (by decide) (by decide)
    (by decide)

/-! ### C3: exact on-disk matches -/

/-- C3 counterexample: `/b/f` exists on disk with exactly the given case, yet
with a (valid) cache entry mapping the folded path to the case variant
`/b/F`, case-insensitive resolution returns `/b/F`, not `/b/f`. -/
theorem exact_match_any_cache_refuted :
    fsExact.metadata (pathOf ["b", "f"]) = .ok 0
    ∧ (resolve fsExact (pathOf ["b"]) ⟨0, [Seg.text "f"]⟩ true cacheExact).1
      = pathOf ["b", "F"]
    ∧ pathOf ["b", "F"] ≠ pathOf ["b", "f"] := by
  refine ⟨rfl, by decide, by decide⟩

/-- C3 amended: if an entry exists on disk at `base/raw_path` with exactly
the given case, `resolve` returns the exact concatenated path when
case-insensitivity is disabled (for every cache state), and when it is
enabled provided the cache lookup for the full path misses (in particular
for an empty cache). -/
theorem exact_match_preserved (fs : FS) (base : FsPath) (r : RawPath) (c : Cache)
    (m : FMeta)
    (hmeta : fs.metadata (FsPath.pushAll base r.segs) = .ok m) :
    (∀ cc : Cache, (resolve fs base r false cc).1 = FsPath.pushAll base r.segs)
    ∧ ((Cache.get fs c (FsPath.pushAll base r.segs)).1 = none →
        (resolve fs base r true c).1 = FsPath.pushAll base r.segs) := by
  have hex : FS.metaOk fs (FsPath.pushAll base r.segs) = true := by
    simp [FS.metaOk, hmeta]
  constructor
  · intro cc
    simp [resolve, strip_parse]
  · intro hmiss
    by_cases hrt : ((FsPath.pushAll base r.segs).root
        && (FsPath.pushAll base r.segs).allText) = true
    · cases hpar : FsPath.parent (FsPath.pushAll base r.segs) with
      | none => rw [resolve_noparent fs base r c hpar]
      | some par =>
        have hroot : (FsPath.pushAll base r.segs).root = true := by
          simp only [Bool.and_eq_true] at hrt
          exact hrt.1
        have htext : (FsPath.pushAll base r.segs).allText = true := by
          simp only [Bool.and_eq_true] at hrt
          exact hrt.2
        have hget : Cache.get fs c (FsPath.pushAll base r.segs)
            = (none, (Cache.get fs c (FsPath.pushAll base r.segs)).2) := by
          rcases hg : Cache.get fs c (FsPath.pushAll base r.segs) with ⟨o, c2⟩
          rw [hg] at hmiss
          simp at hmiss
          rw [hmiss]
        rw [resolve_direct fs base r c _ par hroot htext hpar hget hex]
    · have hrt2 : ((FsPath.pushAll base r.segs).root
          && (FsPath.pushAll base r.segs).allText) = false := by
        simpa using hrt
      rw [resolve_early fs base r c hrt2]

/-- C3 witness: the amended claim at a concrete exact-match scenario — the
disabled mode even at the populated cache that defeats the enabled mode, and
the enabled mode at an empty cache, whose lookup misses. -/
theorem exact_match_preserved_inst :
    (resolve fsExact (pathOf ["b"]) ⟨0, [Seg.text "f"]⟩ false cacheExact).1
      = FsPath.pushAll (pathOf ["b"]) [Seg.text "f"]
    ∧ (resolve fsExact (pathOf ["b"]) ⟨0, [Seg.text "f"]⟩ true ⟨1024, []⟩).1
      = FsPath.pushAll (pathOf ["b"]) [Seg.text "f"] := by
  have h := exact_match_preserved fsExact (pathOf ["b"]) ⟨0, [Seg.text "f"]⟩
    ⟨1024, []⟩ 0 rfl
  exact ⟨h.1 cacheExact, h.2 (by decide)⟩

/-! ### C7 counterexample: idempotence fails after a late-terminal walk -/

/-- C7 counterexample: resolving `c/d` under `/b` twice with no filesystem
change in between returns `/b/C/d` first (root walk, terminal at the final
segment) and `/b/C/D` second (parent shortcut from the cache entry created by
the first call, whose skip-check lookup scans the directory). -/
theorem resolve_idempotence_refuted :
    (resolve fsWalk (pathOf ["b"]) ⟨0, [Seg.text "c", Seg.text "d"]⟩ true
        ⟨1024, []⟩).1
      = pathOf ["b", "C", "d"]
    ∧ (resolve fsWalk (pathOf ["b"]) ⟨0, [Seg.text "c", Seg.text "d"]⟩ true
        (resolve fsWalk (pathOf ["b"]) ⟨0, [Seg.text "c", Seg.text "d"]⟩ true
          ⟨1024, []⟩).2).1
      = pathOf ["b", "C", "D"]
    ∧ pathOf ["b", "C", "d"] ≠ pathOf ["b", "C", "D"] := by
  refine ⟨by decide, by decide, by decide⟩

/-- C8 witness: the invariant at a concrete cache, insertion and lookup. -/
theorem cache_key_fold_invariant_inst :
    Cache.WF ⟨5, []⟩ ∧ Cache.WF (Cache.insert cacheExact (pathOf ["x", "Y"]))
    ∧ Cache.WF (Cache.get fsExact cacheExact (pathOf ["b", "f"])).2 :=
  cache_key_fold_invariant fsExact cacheExact (pathOf ["b", "f"])
    (pathOf ["x", "Y"]) 5 (by
      intro kv hkv
      simp only [cacheExact, List.mem_singleton] at hkv
      subst hkv
      rfl)

/-! ### More cache and fold lemmas -/

theorem get_none_sub (fs : FS) (c : Cache) (p : FsPath) (c2 : Cache)
    (h : Cache.get fs c p = (none, c2)) : c2.entries ⊆ c.entries := by
  rcases hf : Cache.find? c (pathbuf_to_lowercase p) with _ | v
  · have hg : Cache.get fs c p = (none, c) := by simp [Cache.get, hf]
    rw [hg] at h
    cases h
    exact fun x hx => hx
  · rcases hm : fs.metadata v with e | m
    · have hg : Cache.get fs c p
          = (none, ⟨c.cap, Cache.eraseKey c.entries (pathbuf_to_lowercase p)⟩) := by
        simp [Cache.get, hf, hm]
      rw [hg] at h
      cases h
      exact eraseKey_subset _ _
    · have hg : Cache.get fs c p
          = (some (v, m), ⟨c.cap, (pathbuf_to_lowercase p, v)
              :: Cache.eraseKey c.entries (pathbuf_to_lowercase p)⟩) := by
        simp [Cache.get, hf, hm]
      rw [hg] at h
      cases h

theorem get_some_inv (fs : FS) (c : Cache) (p : FsPath) (v : FsPath) (m : FMeta)
    (c2 : Cache) (h : Cache.get fs c p = (some (v, m), c2)) :
    Cache.find? c (pathbuf_to_lowercase p) = some v ∧ fs.metadata v = .ok m
    ∧ c2 = ⟨c.cap, (pathbuf_to_lowercase p, v)
        :: Cache.eraseKey c.entries (pathbuf_to_lowercase p)⟩ := by
  rcases hf : Cache.find? c (pathbuf_to_lowercase p) with _ | w
  · have hg : Cache.get fs c p = (none, c) := by simp [Cache.get, hf]
    rw [hg] at h
    cases h
  · rcases hm : fs.metadata w with e | m2
    · have hg : Cache.get fs c p
          = (none, ⟨c.cap, Cache.eraseKey c.entries (pathbuf_to_lowercase p)⟩) := by
        simp [Cache.get, hf, hm]
      rw [hg] at h
      cases h
    · have hg : Cache.get fs c p
          = (some (w, m2), ⟨c.cap, (pathbuf_to_lowercase p, w)
              :: Cache.eraseKey c.entries (pathbuf_to_lowercase p)⟩) := by
        simp [Cache.get, hf, hm]
      rw [hg] at h
      obtain ⟨h1, h2⟩ := Prod.mk.injEq .. ▸ h
      obtain ⟨hv, hm3⟩ := Prod.mk.injEq .. ▸ (Option.some.injEq .. ▸ h1)
      subst hv
      subst hm3
      exact ⟨rfl, hm, h2.symm⟩

/-- C5: under a multi-segment case-insensitive resolution that reaches the
root walk and goes terminal before the final segment, the returned path is the
terminal candidate with the remaining input segments appended verbatim, it
contains all of the input's segments, and no cache entry is created. -/
theorem terminal_propagation (fs : FS) (base : FsPath) (r : RawPath)
    (c c1 c1p : Cache) (par : FsPath) (pre rest : List Seg) (seg : Seg)
    (acc np : FsPath)
    (hroot : (FsPath.pushAll base r.segs).root = true)
    (htext : (FsPath.pushAll base r.segs).allText = true)
    (hpar : FsPath.parent (FsPath.pushAll base r.segs) = some par)
    (hget : Cache.get fs c (FsPath.pushAll base r.segs) = (none, c1))
    (hex : FS.metaOk fs (FsPath.pushAll base r.segs) = false)
    (hsegs : r.segs = pre ++ seg :: rest)
    (hrest : rest ≠ [])
    (hpget : Cache.get fs c1 par = (none, c1p))
    (hpex : FS.metaOk fs par = false)
    (hpre : walkPath fs false base false pre = (acc, false))
    (hterm : lookup fs acc seg false = (np, true)) :
    (resolve fs base r true c).1 = FsPath.pushAll np rest
    ∧ np = FsPath.push acc seg
    ∧ (resolve fs base r true c).1.segs.length = base.segs.length + r.segs.length
    ∧ ∀ kv ∈ (resolve fs base r true c).2.entries, kv ∈ c.entries := by
  have hrlen : 0 < rest.length := List.length_pos.mpr hrest
  have hlen : 1 < r.segs.length := by
    rw [hsegs]
    simp only [List.length_append, List.length_cons]
    omega
  have hplk : parentLookup fs c1 par = (par, false, c1p) := by
    simp [parentLookup, hpget, hpex]
  have hpe : (parentLookup fs c1 par).2.1 = false := by rw [hplk]
  have hkey := resolve_walk_branch fs base r c c1 par hroot htext hpar hget hex hlen hpe
  rw [hplk] at hkey
  have hnp : np = FsPath.push acc seg := by
    rcases lookup_shape fs acc seg false with ⟨st, hsh⟩ | ⟨str, n, hs, hn, hsh⟩
    · rw [hterm] at hsh
      exact (Prod.mk.injEq .. ▸ hsh).1
    · rw [hterm] at hsh
      cases (Prod.mk.injEq .. ▸ hsh).2
  have hacc1 : (walkPath fs false base false pre).1 = acc := by rw [hpre]
  have hacc2 : (walkPath fs false base false pre).2 = false := by rw [hpre]
  have hw : rootWalk fs false (r.segs.length - 1) c1p base false 0 r.segs
      = (FsPath.pushAll np rest, true, c1p) := by
    rw [hsegs] at hlen ⊢
    have hls : (pre ++ seg :: rest).length - 1 = pre.length + rest.length := by
      simp only [List.length_append, List.length_cons]
      omega
    rw [rootWalk_append]
    have hp := rootWalk_path fs false ((pre ++ seg :: rest).length - 1) c1p base false 0 pre
    have hc := rootWalk_cache_below fs false ((pre ++ seg :: rest).length - 1) c1p
      base false 0 pre (by simp only [List.length_append, List.length_cons]; omega)
    have h1 : rootWalk fs false ((pre ++ seg :: rest).length - 1) c1p base false 0 pre
        = (acc, false, c1p) := by
      rcases hmk : rootWalk fs false ((pre ++ seg :: rest).length - 1) c1p base false 0 pre
        with ⟨a, s, cc⟩
      rw [hmk] at hp hc
      simp only at hp hc
      rw [hp.1, hp.2, hc, hacc1, hacc2]
    rw [h1]
    simp only [rootWalk, Bool.false_eq_true, if_false]
    have hne : ((0 + pre.length) == (pre ++ seg :: rest).length - 1) = false := by
      rw [hls]
      simp only [beq_eq_false_iff_ne, ne_eq]
      omega
    rw [hne]
    simp only [Bool.false_eq_true, if_false, hterm]
    rw [rootWalk_stop]
  rw [hkey, hw]
  refine ⟨rfl, hnp, ?_, ?_⟩
  · have hlacc : acc.segs.length = base.segs.length + pre.length := by
      rw [← hacc1, walkPath_fst_len]
    rw [hnp]
    simp only [FsPath.pushAll, FsPath.push, FsPath.mk_segs, List.length_append,
      List.length_cons, List.length_nil, hsegs, hlacc]
    omega
  · intro kv hkv
    exact get_none_sub fs c _ c1 hget (get_none_sub fs c1 par c1p hpget hkv)

/-- Scenario: `/b/c` is unreadable (permission error); nothing else exists. -/
def fsTerm : FS where
  metadata := fun p =>
    if p = pathOf ["b", "c"] then .error .permissionDenied
    else .error .notFound
  readDir := fun _ => .error ()

/-- C5 witness: terminal propagation at a concrete three-segment input whose
first segment hits a permission error. -/
theorem terminal_propagation_inst :
    (resolve fsTerm (pathOf ["b"])
        ⟨0, [Seg.text "c", Seg.text "d", Seg.text "e"]⟩ true ⟨1024, []⟩).1
      = FsPath.pushAll (pathOf ["b", "c"]) [Seg.text "d", Seg.text "e"]
    ∧ pathOf ["b", "c"] = FsPath.push (pathOf ["b"]) (Seg.text "c")
    ∧ (resolve fsTerm (pathOf ["b"])
        ⟨0, [Seg.text "c", Seg.text "d", Seg.text "e"]⟩ true ⟨1024, []⟩).1.segs.length
      = (pathOf ["b"]).segs.length
        + (RawPath.mk 0 [Seg.text "c", Seg.text "d", Seg.text "e"]).segs.length
    ∧ ∀ kv ∈ (resolve fsTerm (pathOf ["b"])
        ⟨0, [Seg.text "c", Seg.text "d", Seg.text "e"]⟩ true ⟨1024, []⟩).2.entries,
        kv ∈ (Cache.mk 1024 []).entries :=
  terminal_propagation fsTerm (pathOf ["b"])
    ⟨0, [Seg.text "c", Seg.text "d", Seg.text "e"]⟩ ⟨1024, []⟩ ⟨1024, []⟩ ⟨1024, []⟩
    (pathOf ["b", "c", "d"]) [] [Seg.text "d", Seg.text "e"] (Seg.text "c")
    (pathOf ["b"]) (pathOf ["b", "c"])
    (by decide) (by decide) (by decide) (by decide) (by decide) (by decide)
    (by decide) (by decide) (by decide) (by decide) (by decide)

/-! ### C10: resolution preserves the case fold -/

theorem fold_allText_out (p : FsPath) (h : p.allText = true) :
    (pathbuf_to_lowercase p).allText = true := by
  rw [fold_of_allText p h]
  simp only [FsPath.allText, FsPath.mk_segs, List.all_map]
  simp only [FsPath.allText] at h
  rw [List.all_eq_true] at h ⊢
  intro s hs
  have hh := h s hs
  cases s with
  | text str => simp [Seg.lower, Seg.toStr, Function.comp]
  | raw b => simp [Seg.toStr] at hh

theorem parent_some_inv (p par : FsPath) (h : FsPath.parent p = some par) :
    par = ⟨p.root, p.segs.dropLast⟩ ∧ p.segs ≠ [] := by
  cases hs : p.segs with
  | nil =>
    unfold FsPath.parent at h
    rw [hs] at h
    cases h
  | cons a l =>
    unfold FsPath.parent at h
    rw [hs] at h
    simp only [Option.some.injEq] at h
    exact ⟨h.symm, List.cons_ne_nil a l⟩

theorem dropLast_allText (p : FsPath) (b : Bool) (h : p.allText = true) :
    FsPath.allText ⟨b, p.segs.dropLast⟩ = true := by
  simp only [FsPath.allText, FsPath.mk_segs] at h ⊢
  rw [List.all_eq_true] at h ⊢
  intro s hs
  exact h s (List.Sublist.subset (List.dropLast_sublist _) hs)

theorem lookup_fold_full (fs : FS) (P : FsPath) (str : String) (b : Bool)
    (hP : P.allText = true) :
    pathbuf_to_lowercase (lookup fs P (Seg.text str) b).1
      = ⟨P.root, P.segs.map Seg.lower ++ [Seg.text (strLower str)]⟩ := by
  rw [fold_of_allText _ (lookup_fst_allText fs P str b hP)]
  rw [lookup_fst_root, lookup_fst_lower]

/-- C10: for every case-insensitive resolution whose full candidate path is
decodable text, starting from a reachable cache state (keys are folds of
values), the lowercase fold of the returned path equals the lowercase fold of
`base` joined with the root-stripped raw path: resolution may change only the
case of segments, never their number or identity.  (This holds whether or not
resolution goes terminal.) -/
theorem resolve_preserves_fold (fs : FS) (base : FsPath) (r : RawPath) (c : Cache)
    (hWF : Cache.WF c)
    (htext : (FsPath.pushAll base r.segs).allText = true) :
    pathbuf_to_lowercase (resolve fs base r true c).1
      = pathbuf_to_lowercase (FsPath.pushAll base r.segs) := by
  by_cases hroot : (FsPath.pushAll base r.segs).root = true
  case neg =>
    have hrootf : (FsPath.pushAll base r.segs).root = false := by simpa using hroot
    rw [resolve_early fs base r c (by rw [hrootf]; rfl)]
  case pos =>
  cases hpar : FsPath.parent (FsPath.pushAll base r.segs) with
  | none => rw [resolve_noparent fs base r c hpar]
  | some par =>
  rcases hg : Cache.get fs c (FsPath.pushAll base r.segs) with ⟨og, c1⟩
  cases og with
  | some vm =>
    rcases vm with ⟨v, m⟩
    rw [resolve_hit fs base r c c1 par v m hroot htext hpar hg]
    obtain ⟨hfind, -, -⟩ := get_some_inv fs c _ v m c1 hg
    have hkv := hWF _ (find?_some_mem _ _ _ hfind)
    simp only at hkv
    exact hkv.symm
  | none =>
  by_cases hex : FS.metaOk fs (FsPath.pushAll base r.segs) = true
  case pos => rw [resolve_direct fs base r c c1 par hroot htext hpar hg hex]
  case neg =>
  have hexf : FS.metaOk fs (FsPath.pushAll base r.segs) = false := by simpa using hex
  by_cases hseg : r.segs = []
  case pos => rw [resolve_noseg fs base r c c1 par hroot htext hpar hg hexf hseg]
  case neg =>
  have hWF1 : Cache.WF c1 := by
    have hh := wf_get fs c (FsPath.pushAll base r.segs) hWF
    rw [hg] at hh
    exact hh
  obtain ⟨hpareq, hFPne⟩ := parent_some_inv _ par hpar
  have hsplit : (base.allText && r.segs.all (fun s => (Seg.toStr s).isSome)) = true := by
    rw [← allText_pushAll]
    exact htext
  obtain ⟨hbT, hsT⟩ := Bool.and_eq_true_iff.mp hsplit
  have hlastq := List.getLast?_eq_getLast r.segs hseg
  obtain ⟨str, hstr⟩ : ∃ str, r.segs.getLast hseg = Seg.text str := by
    have hm := List.getLast_mem hseg
    have hT := List.all_eq_true.mp hsT _ hm
    cases hgl : r.segs.getLast hseg with
    | text s2 => exact ⟨s2, rfl⟩
    | raw bb => rw [hgl] at hT; simp [Seg.toStr] at hT
  have hlast : r.segs.getLast? = some (Seg.text str) := by rw [hlastq, hstr]
  have hparT : par.allText = true := by
    rw [hpareq]
    exact dropLast_allText _ _ htext
  have hparRoot : par.root = (FsPath.pushAll base r.segs).root := by rw [hpareq]
  have hparSegs : par.segs = (FsPath.pushAll base r.segs).segs.dropLast := by rw [hpareq]
  have hFPsegs : (FsPath.pushAll base r.segs).segs.dropLast ++ [r.segs.getLast hseg]
      = (FsPath.pushAll base r.segs).segs := by
    show (base.segs ++ r.segs).dropLast ++ [r.segs.getLast hseg] = base.segs ++ r.segs
    rw [List.dropLast_append_of_ne_nil base.segs hseg, List.append_assoc,
      List.dropLast_concat_getLast hseg]
  have key : ∀ (P : FsPath) (b : Bool), P.allText = true → P.root = par.root →
      P.segs.map Seg.lower = par.segs.map Seg.lower →
      pathbuf_to_lowercase (lookup fs P (Seg.text str) b).1
        = pathbuf_to_lowercase (FsPath.pushAll base r.segs) := by
    intro P b hPT hPr hPs
    rw [lookup_fold_full fs P str b hPT]
    rw [fold_of_allText _ htext]
    have hsegseq : P.segs.map Seg.lower ++ [Seg.text (strLower str)]
        = (FsPath.pushAll base r.segs).segs.map Seg.lower := by
      rw [hPs, hparSegs]
      conv_rhs => rw [← hFPsegs, List.map_append, hstr]
      rfl
    rw [hPr, hparRoot, hsegseq]
  by_cases hlen : 1 < r.segs.length
  case neg =>
    have hpos := List.length_pos.mpr hseg
    have hlen1 : r.segs.length = 1 := by omega
    rw [resolve_single_seg fs base r c c1 par (Seg.text str) hroot htext hpar hg hexf
      hlen1 hlast]
    exact key par true hparT rfl rfl
  case pos =>
  rcases hpg : Cache.get fs c1 par with ⟨opg, c2⟩
  cases opg with
  | some vm2 =>
    rcases vm2 with ⟨v2, m2⟩
    have hplk : parentLookup fs c1 par = (v2, true, c2) := by
      simp [parentLookup, hpg]
    have hpe : (parentLookup fs c1 par).2.1 = true := by rw [hplk]
    rw [resolve_parent_branch fs base r c c1 par (Seg.text str) hroot htext hpar hg
      hexf hlen hpe hlast]
    rw [hplk]
    obtain ⟨hfind2, -, -⟩ := get_some_inv fs c1 par v2 m2 c2 hpg
    have hkv2 := hWF1 _ (find?_some_mem _ _ _ hfind2)
    simp only at hkv2
    have hfold2 : pathbuf_to_lowercase v2 = pathbuf_to_lowercase par := hkv2.symm
    have hv2T : v2.allText = true :=
      allText_of_fold_eq v2 _ (fold_allText_out par hparT) hfold2
    have hv2r : v2.root = par.root := by
      have hr := congrArg FsPath.root hfold2
      rwa [fold_root, fold_root] at hr
    have hv2s : v2.segs.map Seg.lower = par.segs.map Seg.lower := by
      have hr := congrArg FsPath.segs hfold2
      rw [fold_of_allText _ hv2T, fold_of_allText _ hparT] at hr
      simpa using hr
    exact key v2 true hv2T hv2r hv2s
  | none =>
    by_cases hpex : FS.metaOk fs par = true
    case pos =>
      have hplk : parentLookup fs c1 par = (par, true, Cache.insert c2 par) := by
        simp [parentLookup, hpg, hpex]
      have hpe : (parentLookup fs c1 par).2.1 = true := by rw [hplk]
      rw [resolve_parent_branch fs base r c c1 par (Seg.text str) hroot htext hpar hg
        hexf hlen hpe hlast]
      rw [hplk]
      exact key par true hparT rfl rfl
    case neg =>
      have hpexf : FS.metaOk fs par = false := by simpa using hpex
      have hplk : parentLookup fs c1 par = (par, false, c2) := by
        simp [parentLookup, hpg, hpexf]
      have hpe : (parentLookup fs c1 par).2.1 = false := by rw [hplk]
      rw [resolve_walk_branch fs base r c c1 par hroot htext hpar hg hexf hlen hpe]
      have hw1 : (rootWalk fs false (r.segs.length - 1) (parentLookup fs c1 par).2.2
          base false 0 r.segs).1 = (walkPath fs false base false r.segs).1 :=
        (rootWalk_path fs false (r.segs.length - 1) (parentLookup fs c1 par).2.2
          base false 0 r.segs).1
      rw [hw1]
      have hwT : (walkPath fs false base false r.segs).1.allText = true :=
        walkPath_fst_allText fs false base false r.segs hbT hsT
      rw [fold_of_allText _ hwT, fold_of_allText _ htext]
      rw [FsPath.mk.injEq]
      constructor
      · rw [walkPath_fst_root]
        rfl
      · rw [walkPath_fst_lower fs false base false r.segs hsT]
        rfl

/-! ### Cache shape lemmas for the idempotence analysis -/

theorem cache_find?_eq_none_iff (c : Cache) (k : FsPath) :
    Cache.find? c k = none ↔ ∀ kv ∈ c.entries, kv.1 ≠ k := by
  simp only [Cache.find?, Option.map_eq_none', List.find?_eq_none, beq_iff_eq]

theorem get_none_inv (fs : FS) (c : Cache) (p : FsPath) (c2 : Cache)
    (h : Cache.get fs c p = (none, c2)) :
    Cache.find? c2 (pathbuf_to_lowercase p) = none := by
  rcases hf : Cache.find? c (pathbuf_to_lowercase p) with _ | v
  · have hg : Cache.get fs c p = (none, c) := by simp [Cache.get, hf]
    rw [hg] at h
    cases h
    exact hf
  · rcases hm : fs.metadata v with e | m
    · have hg : Cache.get fs c p
          = (none, ⟨c.cap, Cache.eraseKey c.entries (pathbuf_to_lowercase p)⟩) := by
        simp [Cache.get, hf, hm]
      rw [hg] at h
      cases h
      exact cache_find?_eraseKey _ _ _
    · have hg : Cache.get fs c p
          = (some (v, m), ⟨c.cap, (pathbuf_to_lowercase p, v)
              :: Cache.eraseKey c.entries (pathbuf_to_lowercase p)⟩) := by
        simp [Cache.get, hf, hm]
      rw [hg] at h
      cases h

theorem get_of_find_none (fs : FS) (c : Cache) (p : FsPath)
    (h : Cache.find? c (pathbuf_to_lowercase p) = none) :
    Cache.get fs c p = (none, c) := by
  simp [Cache.get, h]

theorem get_of_find_some_ok (fs : FS) (c : Cache) (p v : FsPath) (m : FMeta)
    (hf : Cache.find? c (pathbuf_to_lowercase p) = some v)
    (hm : fs.metadata v = .ok m) :
    Cache.get fs c p = (some (v, m), ⟨c.cap, (pathbuf_to_lowercase p, v)
      :: Cache.eraseKey c.entries (pathbuf_to_lowercase p)⟩) := by
  simp [Cache.get, hf, hm]

theorem get_of_find_some_err (fs : FS) (c : Cache) (p v : FsPath) (e : ErrKind)
    (hf : Cache.find? c (pathbuf_to_lowercase p) = some v)
    (hm : fs.metadata v = .error e) :
    Cache.get fs c p = (none, ⟨c.cap, Cache.eraseKey c.entries (pathbuf_to_lowercase p)⟩) := by
  simp [Cache.get, hf, hm]

theorem find?_sub_none (c : Cache) (k : FsPath) (h : Cache.find? c k = none)
    (cap : Nat) (l : List (FsPath × FsPath)) (hsub : l ⊆ c.entries) :
    Cache.find? ⟨cap, l⟩ k = none := by
  rw [cache_find?_eq_none_iff] at h ⊢
  exact fun kv hkv => h kv (hsub hkv)

theorem find?_cons_self (cap : Nat) (k v : FsPath) (l : List (FsPath × FsPath)) :
    Cache.find? ⟨cap, (k, v) :: l⟩ k = some v := by
  simp [Cache.find?, List.find?]

theorem find?_cons_ne (cap cap2 : Nat) (k k2 v : FsPath) (l : List (FsPath × FsPath))
    (hne : k2 ≠ k) :
    Cache.find? ⟨cap, (k2, v) :: l⟩ k = Cache.find? ⟨cap2, l⟩ k := by
  have hb : (k2 == k) = false := by simp [hne]
  simp [Cache.find?, List.find?, hb]

theorem fold_ne_of_len (p q : FsPath) (h : p.segs.length ≠ q.segs.length) :
    pathbuf_to_lowercase p ≠ pathbuf_to_lowercase q := by
  intro he
  apply h
  have hl := congrArg (fun x => x.segs.length) he
  simpa [fold_segs_length] using hl

theorem insert_entries (c : Cache) (p : FsPath) (hcap : 1 ≤ c.cap) :
    ∃ t, (Cache.insert c p).entries = (pathbuf_to_lowercase p, p) :: t
      ∧ t ⊆ c.entries ∧ (Cache.insert c p).cap = c.cap := by
  obtain ⟨k2, hk2⟩ : ∃ k2, c.cap = k2 + 1 := ⟨c.cap - 1, by omega⟩
  refine ⟨(Cache.eraseKey c.entries (pathbuf_to_lowercase p)).take k2, ?_, ?_, rfl⟩
  · simp [Cache.insert, hk2, List.take_succ_cons]
  · exact fun x hx => eraseKey_subset _ _ (List.take_subset _ _ hx)

theorem insert_entries2 (c : Cache) (p : FsPath) (k v : FsPath)
    (t : List (FsPath × FsPath)) (hc : c.entries = (k, v) :: t) (hcap : 2 ≤ c.cap)
    (hne : k ≠ pathbuf_to_lowercase p) :
    ∃ t2, (Cache.insert c p).entries
      = (pathbuf_to_lowercase p, p) :: (k, v) :: t2 ∧ t2 ⊆ t
      ∧ (Cache.insert c p).cap = c.cap := by
  obtain ⟨k2, hk2⟩ : ∃ k2, c.cap = k2 + 2 := ⟨c.cap - 2, by omega⟩
  have hb : (k != pathbuf_to_lowercase p) = true := by simp [hne]
  refine ⟨(Cache.eraseKey t (pathbuf_to_lowercase p)).take k2, ?_, ?_, rfl⟩
  · simp [Cache.insert, hc, Cache.eraseKey, List.filter_cons, hb, hk2,
      List.take_succ_cons]
  · exact fun x hx => List.mem_of_mem_filter (List.take_subset _ _ hx)

theorem get_snd_cap (fs : FS) (c : Cache) (p : FsPath) :
    (Cache.get fs c p).2.cap = c.cap := by
  rcases hf : Cache.find? c (pathbuf_to_lowercase p) with _ | v
  · simp [Cache.get, hf]
  · rcases hm : fs.metadata v with e | m <;> simp [Cache.get, hf, hm]

theorem fold_eq_components (P Q : FsPath) (hQT : Q.allText = true)
    (h : pathbuf_to_lowercase P = pathbuf_to_lowercase Q) :
    P.allText = true ∧ P.root = Q.root
    ∧ P.segs.map Seg.lower = Q.segs.map Seg.lower := by
  have hPT : P.allText = true := allText_of_fold_eq P _ (fold_allText_out Q hQT) h
  refine ⟨hPT, ?_, ?_⟩
  · have hr := congrArg FsPath.root h
    rwa [fold_root, fold_root] at hr
  · have hs := congrArg FsPath.segs h
    rw [fold_of_allText _ hPT, fold_of_allText _ hQT] at hs
    simpa using hs

theorem final_lookup_fold (fs : FS) (base : FsPath) (r : RawPath)
    (hseg : r.segs ≠ [])
    (htext : (FsPath.pushAll base r.segs).allText = true)
    (str : String) (hstr : r.segs.getLast hseg = Seg.text str)
    (P : FsPath) (b : Bool)
    (hfold : pathbuf_to_lowercase P = pathbuf_to_lowercase
        ⟨(FsPath.pushAll base r.segs).root, (FsPath.pushAll base r.segs).segs.dropLast⟩) :
    pathbuf_to_lowercase (lookup fs P (Seg.text str) b).1
      = pathbuf_to_lowercase (FsPath.pushAll base r.segs) := by
  have hparT : FsPath.allText ⟨(FsPath.pushAll base r.segs).root,
      (FsPath.pushAll base r.segs).segs.dropLast⟩ = true :=
    dropLast_allText _ _ htext
  obtain ⟨hPT, hPr, hPs⟩ := fold_eq_components P _ hparT hfold
  rw [lookup_fold_full fs P str b hPT]
  rw [fold_of_allText _ htext]
  have hFPne : (FsPath.pushAll base r.segs).segs ≠ [] := by
    show base.segs ++ r.segs ≠ []
    simp [hseg]
  have hFPsegs : (FsPath.pushAll base r.segs).segs.dropLast ++ [r.segs.getLast hseg]
      = (FsPath.pushAll base r.segs).segs := by
    show (base.segs ++ r.segs).dropLast ++ [r.segs.getLast hseg] = base.segs ++ r.segs
    rw [List.dropLast_append_of_ne_nil base.segs hseg, List.append_assoc,
      List.dropLast_concat_getLast hseg]
  have hsegseq : P.segs.map Seg.lower ++ [Seg.text (strLower str)]
      = (FsPath.pushAll base r.segs).segs.map Seg.lower := by
    rw [hPs]
    simp only [FsPath.mk_segs]
    conv_rhs => rw [← hFPsegs, List.map_append, hstr]
    rfl
  rw [hPr, hsegseq]

/-- The late-terminal condition on the root walk: `false` exactly when the
walk over all but the last segment stays live and the final segment's lookup
(initial check enabled, as the walk performs it) goes terminal. -/
def noLateTerm (fs : FS) (base : FsPath) (segs : List Seg) : Bool :=
  match segs.getLast? with
  | none => true
  | some lastel =>
    !(!(walkPath fs false base false segs.dropLast).2
      && (lookup fs (walkPath fs false base false segs.dropLast).1 lastel false).2)

theorem resolve_parent_branch2 (fs : FS) (base : FsPath) (r : RawPath) (c c1 c2 : Cache)
    (par pR : FsPath) (le : Seg)
    (hroot : (FsPath.pushAll base r.segs).root = true)
    (htext : (FsPath.pushAll base r.segs).allText = true)
    (hpar : FsPath.parent (FsPath.pushAll base r.segs) = some par)
    (hget : Cache.get fs c (FsPath.pushAll base r.segs) = (none, c1))
    (hex : FS.metaOk fs (FsPath.pushAll base r.segs) = false)
    (hlen : 1 < r.segs.length)
    (hplk : parentLookup fs c1 par = (pR, true, c2))
    (hlast : r.segs.getLast? = some le) :
    resolve fs base r true c
      = ((lookup fs pR le true).1,
         if (lookup fs pR le true).2 then c2
         else Cache.insert c2 (lookup fs pR le true).1) := by
  have h1 := resolve_parent_branch fs base r c c1 par le hroot htext hpar hget hex hlen
    (by rw [hplk]) hlast
  rw [hplk] at h1
  simpa using h1

theorem resolve_walk_branch2 (fs : FS) (base : FsPath) (r : RawPath) (c c1 c2 : Cache)
    (par pR : FsPath)
    (hroot : (FsPath.pushAll base r.segs).root = true)
    (htext : (FsPath.pushAll base r.segs).allText = true)
    (hpar : FsPath.parent (FsPath.pushAll base r.segs) = some par)
    (hget : Cache.get fs c (FsPath.pushAll base r.segs) = (none, c1))
    (hex : FS.metaOk fs (FsPath.pushAll base r.segs) = false)
    (hlen : 1 < r.segs.length)
    (hplk : parentLookup fs c1 par = (pR, false, c2)) :
    resolve fs base r true c
      = ((rootWalk fs false (r.segs.length - 1) c2 base false 0 r.segs).1,
         if (rootWalk fs false (r.segs.length - 1) c2 base false 0 r.segs).2.1
         then (rootWalk fs false (r.segs.length - 1) c2 base false 0 r.segs).2.2
         else Cache.insert (rootWalk fs false (r.segs.length - 1) c2 base false 0 r.segs).2.2
                (rootWalk fs false (r.segs.length - 1) c2 base false 0 r.segs).1) := by
  have h1 := resolve_walk_branch fs base r c c1 par hroot htext hpar hget hex hlen
    (by rw [hplk])
  rw [hplk] at h1
  simpa using h1

theorem walk_branch_decomp (fs : FS) (c2 : Cache) (base : FsPath)
    (init : List Seg) (lastel : Seg) :
    rootWalk fs false init.length c2 base false 0 (init ++ [lastel])
      = if (walkPath fs false base false init).2 then
          (FsPath.push (walkPath fs false base false init).1 lastel, true, c2)
        else
          ((lookup fs (walkPath fs false base false init).1 lastel false).1,
           (lookup fs (walkPath fs false base false init).1 lastel false).2,
           Cache.insert c2 (walkPath fs false base false init).1) := by
  rw [rootWalk_append]
  have hp := rootWalk_path fs false init.length c2 base false 0 init
  have hc := rootWalk_cache_below fs false init.length c2 base false 0 init (by omega)
  have h1 : rootWalk fs false init.length c2 base false 0 init
      = ((walkPath fs false base false init).1, (walkPath fs false base false init).2, c2) := by
    rcases hmk : rootWalk fs false init.length c2 base false 0 init with ⟨a, s, cc⟩
    rw [hmk] at hp hc
    simp only at hp hc
    rw [hp.1, hp.2, hc]
  rw [h1]
  cases hwp : (walkPath fs false base false init).2 with
  | true =>
    simp only [rootWalk, if_pos]
  | false =>
    have hbeq : ((0 + init.length) == init.length) = true := by simp
    simp only [rootWalk, Bool.false_eq_true, if_false, hbeq, if_pos]

theorem find?_entries (c : Cache) (k : FsPath) :
    Cache.find? c k = Cache.find? ⟨0, c.entries⟩ k := rfl

theorem find?_insert_self (c : Cache) (p : FsPath) (hcap : 1 ≤ c.cap) :
    Cache.find? (Cache.insert c p) (pathbuf_to_lowercase p) = some p := by
  obtain ⟨t, ht, -, -⟩ := insert_entries c p hcap
  rw [find?_entries, ht]
  exact find?_cons_self _ _ _ _

theorem walk_branch_decomp2 (fs : FS) (c2 : Cache) (base : FsPath)
    (segs init : List Seg) (lastel : Seg) (ls : Nat)
    (hs : segs = init ++ [lastel]) (hl : ls = init.length) :
    rootWalk fs false ls c2 base false 0 segs
      = if (walkPath fs false base false init).2 then
          (FsPath.push (walkPath fs false base false init).1 lastel, true, c2)
        else
          ((lookup fs (walkPath fs false base false init).1 lastel false).1,
           (lookup fs (walkPath fs false base false init).1 lastel false).2,
           Cache.insert c2 (walkPath fs false base false init).1) := by
  subst hs
  subst hl
  exact walk_branch_decomp fs c2 base init lastel

/-- C7 amended: calling `resolve` twice in succession with the same
arguments and no filesystem change in between yields the same output path,
provided the cache state is reachable (every key is the fold of its value),
the cache capacity is at least two (the program's cache holds 1024 entries),
and the first call's root walk, if performed, does not go terminal at its
final segment. -/
theorem resolve_idempotent_unless_late_terminal (fs : FS) (base : FsPath)
    (r : RawPath) (c : Cache) (ci : Bool)
    (hWF : Cache.WF c) (hcap : 2 ≤ c.cap)
    (hH : noLateTerm fs base r.segs = true) :
    (resolve fs base r ci (resolve fs base r ci c).2).1 = (resolve fs base r ci c).1 := by
  cases ci with
  | false =>
    have h1 : ∀ cc : Cache, resolve fs base r false cc = (FsPath.pushAll base r.segs, cc) :=
      fun cc => by simp [resolve, strip_parse]
    rw [h1, h1]
  | true =>
  by_cases hroot : (FsPath.pushAll base r.segs).root = true
  case neg =>
    have hrootf : (FsPath.pushAll base r.segs).root = false := by simpa using hroot
    have hrt : ((FsPath.pushAll base r.segs).root
        && (FsPath.pushAll base r.segs).allText) = false := by rw [hrootf]; rfl
    have h1 : ∀ cc : Cache, resolve fs base r true cc = (FsPath.pushAll base r.segs, cc) :=
      fun cc => resolve_early fs base r cc hrt
    rw [h1, h1]
  case pos =>
  by_cases htext : (FsPath.pushAll base r.segs).allText = true
  case neg =>
    have htextf : (FsPath.pushAll base r.segs).allText = false := by simpa using htext
    have hrt : ((FsPath.pushAll base r.segs).root
        && (FsPath.pushAll base r.segs).allText) = false := by
      rw [htextf, Bool.and_false]
    have h1 : ∀ cc : Cache, resolve fs base r true cc = (FsPath.pushAll base r.segs, cc) :=
      fun cc => resolve_early fs base r cc hrt
    rw [h1, h1]
  case pos =>
  cases hpar : FsPath.parent (FsPath.pushAll base r.segs) with
  | none =>
    have h1 : ∀ cc : Cache, resolve fs base r true cc = (FsPath.pushAll base r.segs, cc) :=
      fun cc => resolve_noparent fs base r cc hpar
    rw [h1, h1]
  | some par =>
  rcases hg : Cache.get fs c (FsPath.pushAll base r.segs) with ⟨og, c1⟩
  cases og with
  | some vm =>
    rcases vm with ⟨v, m⟩
    obtain ⟨hfind, hmv, hc1⟩ := get_some_inv fs c _ v m c1 hg
    rw [resolve_hit fs base r c c1 par v m hroot htext hpar hg]
    dsimp only
    have hf2 : Cache.find? c1 (pathbuf_to_lowercase (FsPath.pushAll base r.segs))
        = some v := by
      rw [hc1]
      exact find?_cons_self _ _ _ _
    have hg3 := get_of_find_some_ok fs c1 (FsPath.pushAll base r.segs) v m hf2 hmv
    rw [resolve_hit fs base r c1 _ par v m hroot htext hpar hg3]
  | none =>
  have hK1none : Cache.find? c1 (pathbuf_to_lowercase (FsPath.pushAll base r.segs))
      = none := get_none_inv fs c _ c1 hg
  have hsub1 : c1.entries ⊆ c.entries := get_none_sub fs c _ c1 hg
  have hWF1 : Cache.WF c1 := by
    have hh := wf_get fs c (FsPath.pushAll base r.segs) hWF
    rw [hg] at hh
    exact hh
  have hcap1 : c1.cap = c.cap := by
    have hh := get_snd_cap fs c (FsPath.pushAll base r.segs)
    rw [hg] at hh
    exact hh
  have hg2 : Cache.get fs c1 (FsPath.pushAll base r.segs) = (none, c1) :=
    get_of_find_none fs c1 _ hK1none
  by_cases hex : FS.metaOk fs (FsPath.pushAll base r.segs) = true
  case pos =>
    rw [resolve_direct fs base r c c1 par hroot htext hpar hg hex]
    dsimp only
    rw [resolve_direct fs base r c1 c1 par hroot htext hpar hg2 hex]
  case neg =>
  have hexf : FS.metaOk fs (FsPath.pushAll base r.segs) = false := by simpa using hex
  by_cases hseg : r.segs = []
  case pos =>
    rw [resolve_noseg fs base r c c1 par hroot htext hpar hg hexf hseg]
    dsimp only
    rw [resolve_noseg fs base r c1 c1 par hroot htext hpar hg2 hexf hseg]
  case neg =>
  obtain ⟨hpareq, hFPne⟩ := parent_some_inv _ par hpar
  have hsplit : (base.allText && r.segs.all (fun s => (Seg.toStr s).isSome)) = true := by
    rw [← allText_pushAll]
    exact htext
  obtain ⟨hbT, hsT⟩ := Bool.and_eq_true_iff.mp hsplit
  have hlastq := List.getLast?_eq_getLast r.segs hseg
  obtain ⟨str, hstr⟩ : ∃ str, r.segs.getLast hseg = Seg.text str := by
    have hm := List.getLast_mem hseg
    have hT := List.all_eq_true.mp hsT _ hm
    cases hgl : r.segs.getLast hseg with
    | text s2 => exact ⟨s2, rfl⟩
    | raw bb => rw [hgl] at hT; simp [Seg.toStr] at hT
  have hlast : r.segs.getLast? = some (Seg.text str) := by rw [hlastq, hstr]
  have hparT : par.allText = true := by
    rw [hpareq]
    exact dropLast_allText _ _ htext
  have hparfold : pathbuf_to_lowercase par
      = pathbuf_to_lowercase ⟨(FsPath.pushAll base r.segs).root,
          (FsPath.pushAll base r.segs).segs.dropLast⟩ := by rw [hpareq]
  have hK12 : pathbuf_to_lowercase (FsPath.pushAll base r.segs)
      ≠ pathbuf_to_lowercase par := by
    apply fold_ne_of_len
    rw [hpareq]
    simp only [FsPath.mk_segs, List.length_dropLast]
    have hpos := List.length_pos.mpr hFPne
    omega
  have hkeyfold : ∀ (P : FsPath) (b : Bool),
      pathbuf_to_lowercase P = pathbuf_to_lowercase par →
      pathbuf_to_lowercase (lookup fs P (Seg.text str) b).1
        = pathbuf_to_lowercase (FsPath.pushAll base r.segs) := fun P b hP =>
    final_lookup_fold fs base r hseg htext str hstr P b (hP.trans hparfold)
  by_cases hlen : 1 < r.segs.length
  case neg =>
    have hpos := List.length_pos.mpr hseg
    have hlen1 : r.segs.length = 1 := by omega
    rcases hlk : lookup fs par (Seg.text str) true with ⟨np, st⟩
    have h1 := resolve_single_seg fs base r c c1 par (Seg.text str) hroot htext hpar hg
      hexf hlen1 hlast
    rw [hlk] at h1
    cases st with
    | true =>
      dsimp only at h1
      rw [if_pos rfl] at h1
      rw [h1]
      dsimp only
      have h2 := resolve_single_seg fs base r c1 c1 par (Seg.text str) hroot htext hpar
        hg2 hexf hlen1 hlast
      rw [hlk] at h2
      dsimp only at h2
      rw [if_pos rfl] at h2
      rw [h2]
    | false =>
      dsimp only at h1
      rw [if_neg (by simp)] at h1
      have hfoldnp : pathbuf_to_lowercase np
          = pathbuf_to_lowercase (FsPath.pushAll base r.segs) := by
        have hh := hkeyfold par true rfl
        rw [hlk] at hh
        exact hh
      rw [h1]
      dsimp only
      have hfind2 : Cache.find? (Cache.insert c1 np)
          (pathbuf_to_lowercase (FsPath.pushAll base r.segs)) = some np := by
        rw [← hfoldnp]
        exact find?_insert_self c1 np (by omega)
      rcases hmnp : fs.metadata np with e2 | m2
      · have hg3 := get_of_find_some_err fs (Cache.insert c1 np) _ np e2 hfind2 hmnp
        have h2 := resolve_single_seg fs base r (Cache.insert c1 np) _ par (Seg.text str)
          hroot htext hpar hg3 hexf hlen1 hlast
        rw [hlk] at h2
        rw [h2]
      · have hg3 := get_of_find_some_ok fs (Cache.insert c1 np) _ np m2 hfind2 hmnp
        rw [resolve_hit fs base r (Cache.insert c1 np) _ par np m2 hroot htext hpar hg3]
  case pos =>
    rcases hpg : Cache.get fs c1 par with ⟨opg, c2⟩
    have hcap2 : c2.cap = c.cap := by
      have hh := get_snd_cap fs c1 par
      rw [hpg] at hh
      rw [hh, hcap1]
    cases opg with
    | some vm2 =>
      rcases vm2 with ⟨v2, m2⟩
      obtain ⟨hfind2, hmv2, hc2⟩ := get_some_inv fs c1 par v2 m2 c2 hpg
      have hplk : parentLookup fs c1 par = (v2, true, c2) := by
        simp [parentLookup, hpg]
      have hv2fold : pathbuf_to_lowercase v2 = pathbuf_to_lowercase par := by
        have hkv := hWF1 _ (find?_some_mem _ _ _ hfind2)
        dsimp only at hkv
        exact hkv.symm
      rcases hlk : lookup fs v2 (Seg.text str) true with ⟨np, st⟩
      have h1 := resolve_parent_branch2 fs base r c c1 c2 par v2 (Seg.text str) hroot
        htext hpar hg hexf hlen hplk hlast
      rw [hlk] at h1
      cases st with
      | true =>
        dsimp only at h1
        rw [if_pos rfl] at h1
        rw [h1]
        dsimp only
        have hfindc2 : Cache.find? c2
            (pathbuf_to_lowercase (FsPath.pushAll base r.segs)) = none := by
          rw [hc2, find?_entries]
          dsimp only
          rw [find?_cons_ne 0 0 _ _ _ _ (Ne.symm hK12)]
          exact find?_sub_none c1 _ hK1none 0 _ (eraseKey_subset _ _)
        have hgg := get_of_find_none fs c2 _ hfindc2
        have hfind2b : Cache.find? c2 (pathbuf_to_lowercase par) = some v2 := by
          rw [hc2, find?_entries]
          dsimp only
          exact find?_cons_self _ _ _ _
        have hgp2 := get_of_find_some_ok fs c2 par v2 m2 hfind2b hmv2
        have hplk2 : parentLookup fs c2 par
            = (v2, true, ⟨c2.cap, (pathbuf_to_lowercase par, v2)
                :: Cache.eraseKey c2.entries (pathbuf_to_lowercase par)⟩) := by
          simp [parentLookup, hgp2]
        have h2 := resolve_parent_branch2 fs base r c2 c2 _ par v2 (Seg.text str) hroot
          htext hpar hgg hexf hlen hplk2 hlast
        rw [hlk] at h2
        dsimp only at h2
        rw [if_pos rfl] at h2
        rw [h2]
      | false =>
        dsimp only at h1
        rw [if_neg (by simp)] at h1
        have hfoldnp : pathbuf_to_lowercase np
            = pathbuf_to_lowercase (FsPath.pushAll base r.segs) := by
          have hh := hkeyfold v2 true hv2fold
          rw [hlk] at hh
          exact hh
        rw [h1]
        dsimp only
        have hK2ne : pathbuf_to_lowercase par ≠ pathbuf_to_lowercase np := by
          rw [hfoldnp]
          exact Ne.symm hK12
        obtain ⟨t2, ht2, ht2sub, -⟩ := insert_entries2 c2 np (pathbuf_to_lowercase par)
          v2 (Cache.eraseKey c1.entries (pathbuf_to_lowercase par)) (by rw [hc2])
          (by omega) hK2ne
        have hfind3 : Cache.find? (Cache.insert c2 np)
            (pathbuf_to_lowercase (FsPath.pushAll base r.segs)) = some np := by
          rw [← hfoldnp]
          exact find?_insert_self c2 np (by omega)
        rcases hmnp : fs.metadata np with e2 | m2b
        · have hg3 := get_of_find_some_err fs (Cache.insert c2 np) _ np e2 hfind3 hmnp
          have hb1 : (pathbuf_to_lowercase np
              != pathbuf_to_lowercase (FsPath.pushAll base r.segs)) = false := by
            simp [hfoldnp]
          have hb2 : (pathbuf_to_lowercase par
              != pathbuf_to_lowercase (FsPath.pushAll base r.segs)) = true := by
            simp [Ne.symm hK12]
          have herase : Cache.eraseKey (Cache.insert c2 np).entries
              (pathbuf_to_lowercase (FsPath.pushAll base r.segs))
              = (pathbuf_to_lowercase par, v2)
                :: Cache.eraseKey t2 (pathbuf_to_lowercase (FsPath.pushAll base r.segs)) := by
            rw [ht2]
            simp [Cache.eraseKey, List.filter_cons, hb1, hb2]
          have hfindp : Cache.find? ⟨(Cache.insert c2 np).cap,
              Cache.eraseKey (Cache.insert c2 np).entries
                (pathbuf_to_lowercase (FsPath.pushAll base r.segs))⟩
              (pathbuf_to_lowercase par) = some v2 := by
            rw [find?_entries]
            dsimp only
            rw [herase]
            exact find?_cons_self _ _ _ _
          generalize hC5 : (⟨(Cache.insert c2 np).cap,
              Cache.eraseKey (Cache.insert c2 np).entries
                (pathbuf_to_lowercase (FsPath.pushAll base r.segs))⟩ : Cache) = C5
          rw [hC5] at hg3 hfindp
          have hgp2 := get_of_find_some_ok fs C5 par v2 m2 hfindp hmv2
          have hplk2 : parentLookup fs C5 par
              = (v2, true, ⟨C5.cap, (pathbuf_to_lowercase par, v2)
                  :: Cache.eraseKey C5.entries (pathbuf_to_lowercase par)⟩) := by
            simp [parentLookup, hgp2]
          have h2 := resolve_parent_branch2 fs base r (Cache.insert c2 np) C5 _ par v2
            (Seg.text str) hroot htext hpar hg3 hexf hlen hplk2 hlast
          rw [hlk] at h2
          dsimp only at h2
          rw [if_neg (by simp)] at h2
          rw [h2]
        · have hg3 := get_of_find_some_ok fs (Cache.insert c2 np) _ np m2b hfind3 hmnp
          rw [resolve_hit fs base r (Cache.insert c2 np) _ par np m2b hroot htext hpar hg3]
    | none =>
      have hfindc2K2 : Cache.find? c2 (pathbuf_to_lowercase par) = none :=
        get_none_inv fs c1 par c2 hpg
      have hsub2 : c2.entries ⊆ c1.entries := get_none_sub fs c1 par c2 hpg
      have hfindc2K1 : Cache.find? c2
          (pathbuf_to_lowercase (FsPath.pushAll base r.segs)) = none := by
        rw [find?_entries]
        exact find?_sub_none c1 _ hK1none 0 _ hsub2
      by_cases hpex : FS.metaOk fs par = true
      case pos =>
        have hplk : parentLookup fs c1 par = (par, true, Cache.insert c2 par) := by
          simp [parentLookup, hpg, hpex]
        obtain ⟨m3, hmp⟩ : ∃ m3, fs.metadata par = .ok m3 := by
          rcases hmp : fs.metadata par with e3 | m3
          · rw [FS.metaOk, hmp] at hpex
            simp at hpex
          · exact ⟨m3, rfl⟩
        rcases hlk : lookup fs par (Seg.text str) true with ⟨np, st⟩
        have h1 := resolve_parent_branch2 fs base r c c1 (Cache.insert c2 par) par par
          (Seg.text str) hroot htext hpar hg hexf hlen hplk hlast
        rw [hlk] at h1
        obtain ⟨t, ht, htsub, hcapins⟩ := insert_entries c2 par (by omega)
        have hfK1 : Cache.find? (Cache.insert c2 par)
            (pathbuf_to_lowercase (FsPath.pushAll base r.segs)) = none := by
          rw [find?_entries, ht]
          rw [find?_cons_ne 0 0 _ _ _ _ (Ne.symm hK12)]
          exact find?_sub_none c1 _ hK1none 0 _ (fun x hx => hsub2 (htsub hx))
        have hgg := get_of_find_none fs (Cache.insert c2 par) _ hfK1
        have hfK2 : Cache.find? (Cache.insert c2 par) (pathbuf_to_lowercase par)
            = some par := find?_insert_self c2 par (by omega)
        cases st with
        | true =>
          dsimp only at h1
          rw [if_pos rfl] at h1
          rw [h1]
          dsimp only
          have hgp2 := get_of_find_some_ok fs (Cache.insert c2 par) par par m3 hfK2 hmp
          have hplk2 : parentLookup fs (Cache.insert c2 par) par
              = (par, true, ⟨(Cache.insert c2 par).cap,
                  (pathbuf_to_lowercase par, par)
                  :: Cache.eraseKey (Cache.insert c2 par).entries
                      (pathbuf_to_lowercase par)⟩) := by
            simp [parentLookup, hgp2]
          have h2 := resolve_parent_branch2 fs base r (Cache.insert c2 par)
            (Cache.insert c2 par) _ par par (Seg.text str) hroot htext hpar hgg hexf
            hlen hplk2 hlast
          rw [hlk] at h2
          dsimp only at h2
          rw [if_pos rfl] at h2
          rw [h2]
        | false =>
          dsimp only at h1
          rw [if_neg (by simp)] at h1
          have hfoldnp : pathbuf_to_lowercase np
              = pathbuf_to_lowercase (FsPath.pushAll base r.segs) := by
            have hh := hkeyfold par true rfl
            rw [hlk] at hh
            exact hh
          rw [h1]
          dsimp only
          have hK2ne : pathbuf_to_lowercase par ≠ pathbuf_to_lowercase np := by
            rw [hfoldnp]
            exact Ne.symm hK12
          obtain ⟨t2, ht2, ht2sub, -⟩ := insert_entries2 (Cache.insert c2 par) np
            (pathbuf_to_lowercase par) par t ht (by rw [hcapins]; omega) hK2ne
          have hfind3 : Cache.find? (Cache.insert (Cache.insert c2 par) np)
              (pathbuf_to_lowercase (FsPath.pushAll base r.segs)) = some np := by
            rw [← hfoldnp]
            exact find?_insert_self _ np (by rw [hcapins]; omega)
          rcases hmnp : fs.metadata np with e2 | m2b
          · have hg3 := get_of_find_some_err fs (Cache.insert (Cache.insert c2 par) np)
              _ np e2 hfind3 hmnp
            have hb1 : (pathbuf_to_lowercase np
                != pathbuf_to_lowercase (FsPath.pushAll base r.segs)) = false := by
              simp [hfoldnp]
            have hb2 : (pathbuf_to_lowercase par
                != pathbuf_to_lowercase (FsPath.pushAll base r.segs)) = true := by
              simp [Ne.symm hK12]
            have herase : Cache.eraseKey (Cache.insert (Cache.insert c2 par) np).entries
                (pathbuf_to_lowercase (FsPath.pushAll base r.segs))
                = (pathbuf_to_lowercase par, par)
                  :: Cache.eraseKey t2 (pathbuf_to_lowercase (FsPath.pushAll base r.segs)) := by
              rw [ht2]
              simp [Cache.eraseKey, List.filter_cons, hb1, hb2]
            have hfindp : Cache.find? ⟨(Cache.insert (Cache.insert c2 par) np).cap,
                Cache.eraseKey (Cache.insert (Cache.insert c2 par) np).entries
                  (pathbuf_to_lowercase (FsPath.pushAll base r.segs))⟩
                (pathbuf_to_lowercase par) = some par := by
              rw [find?_entries]
              dsimp only
              rw [herase]
              exact find?_cons_self _ _ _ _
            generalize hC5 : (⟨(Cache.insert (Cache.insert c2 par) np).cap,
                Cache.eraseKey (Cache.insert (Cache.insert c2 par) np).entries
                  (pathbuf_to_lowercase (FsPath.pushAll base r.segs))⟩ : Cache) = C5
            rw [hC5] at hg3 hfindp
            have hgp2 := get_of_find_some_ok fs C5 par par m3 hfindp hmp
            have hplk2 : parentLookup fs C5 par
                = (par, true, ⟨C5.cap, (pathbuf_to_lowercase par, par)
                    :: Cache.eraseKey C5.entries (pathbuf_to_lowercase par)⟩) := by
              simp [parentLookup, hgp2]
            have h2 := resolve_parent_branch2 fs base r
              (Cache.insert (Cache.insert c2 par) np) C5 _ par par (Seg.text str) hroot
              htext hpar hg3 hexf hlen hplk2 hlast
            rw [hlk] at h2
            dsimp only at h2
            rw [if_neg (by simp)] at h2
            rw [h2]
          · have hg3 := get_of_find_some_ok fs (Cache.insert (Cache.insert c2 par) np)
              _ np m2b hfind3 hmnp
            rw [resolve_hit fs base r (Cache.insert (Cache.insert c2 par) np) _ par np
              m2b hroot htext hpar hg3]
      case neg =>
        have hpexf : FS.metaOk fs par = false := by simpa using hpex
        have hplk : parentLookup fs c1 par = (par, false, c2) := by
          simp [parentLookup, hpg, hpexf]
        have h1 := resolve_walk_branch2 fs base r c c1 c2 par par hroot htext hpar hg
          hexf hlen hplk
        have hdecomp : r.segs = r.segs.dropLast ++ [Seg.text str] := by
          conv_lhs => rw [← List.dropLast_concat_getLast hseg]
          rw [hstr]
        have hlsinit : r.segs.length - 1 = r.segs.dropLast.length := by
          rw [List.length_dropLast]
        have hinitT : r.segs.dropLast.all (fun s => (Seg.toStr s).isSome) = true := by
          rw [List.all_eq_true] at hsT ⊢
          intro s hs
          exact hsT s (List.Sublist.subset (List.dropLast_sublist _) hs)
        obtain ⟨P, s1, hwp⟩ : ∃ P s1, walkPath fs false base false r.segs.dropLast = (P, s1) :=
          ⟨_, _, rfl⟩
        have hwdecomp : ∀ cc : Cache, rootWalk fs false (r.segs.length - 1) cc base false 0 r.segs
            = if s1 then (FsPath.push P (Seg.text str), true, cc)
              else ((lookup fs P (Seg.text str) false).1,
                    (lookup fs P (Seg.text str) false).2,
                    Cache.insert cc P) := by
          intro cc
          have hw0 := walk_branch_decomp2 fs cc base r.segs r.segs.dropLast (Seg.text str)
            (r.segs.length - 1) hdecomp hlsinit
          rw [hwp] at hw0
          exact hw0
        cases hs1 : s1 with
        | true =>
          rw [hs1] at hwdecomp
          rw [hwdecomp c2, if_pos rfl] at h1
          dsimp only at h1
          rw [if_pos rfl] at h1
          rw [h1]
          dsimp only
          have hgg := get_of_find_none fs c2 _ hfindc2K1
          have hgp2 : Cache.get fs c2 par = (none, c2) :=
            get_of_find_none fs c2 _ hfindc2K2
          have hplk2 : parentLookup fs c2 par = (par, false, c2) := by
            simp [parentLookup, hgp2, hpexf]
          have h2 := resolve_walk_branch2 fs base r c2 c2 c2 par par hroot htext hpar
            hgg hexf hlen hplk2
          rw [hwdecomp c2, if_pos rfl] at h2
          dsimp only at h2
          rw [if_pos rfl] at h2
          rw [h2]
        | false =>
          rw [hs1] at hwdecomp
          rcases hlk : lookup fs P (Seg.text str) false with ⟨np, s2⟩
          have hs2 : s2 = false := by
            simp only [noLateTerm, hlast, hwp, hs1, hlk] at hH
            simpa using hH
          rw [hs2] at hlk
          have hPr : P.root = base.root := by
            have hh := walkPath_fst_root fs false base false r.segs.dropLast
            rw [hwp] at hh
            exact hh
          have hPT : P.allText = true := by
            have hh := walkPath_fst_allText fs false base false r.segs.dropLast hbT hinitT
            rw [hwp] at hh
            exact hh
          have hPlower : P.segs.map Seg.lower = (base.segs ++ r.segs.dropLast).map Seg.lower := by
            have hh := walkPath_fst_lower fs false base false r.segs.dropLast hinitT
            rw [hwp] at hh
            simpa using hh
          have hdropFP : (FsPath.pushAll base r.segs).segs.dropLast
              = base.segs ++ r.segs.dropLast := by
            show (base.segs ++ r.segs).dropLast = _
            rw [List.dropLast_append_of_ne_nil base.segs hseg]
          have hPfold : pathbuf_to_lowercase P = pathbuf_to_lowercase par := by
            rw [fold_of_allText _ hPT, fold_of_allText _ hparT]
            rw [FsPath.mk.injEq]
            constructor
            · rw [hPr, hpareq]
              rfl
            · rw [hPlower, hpareq]
              dsimp only [FsPath.mk_segs]
              rw [hdropFP]
          have hwps : (walkPath fs false base false r.segs).1 = np := by
            rw [hdecomp, walkPath_append, hwp]
            dsimp only
            simp [hs1, walkPath, hlk]
          have hfstA : ∀ cc : Cache,
              (rootWalk fs false (r.segs.length - 1) cc base false 0 r.segs).1 = np :=
            fun cc => by
              rw [(rootWalk_path fs false (r.segs.length - 1) cc base false 0 r.segs).1]
              exact hwps
          have hwd := hwdecomp c2
          rw [if_neg (by simp), hlk] at hwd
          rw [hwd] at h1
          dsimp only at h1
          rw [if_neg (by simp)] at h1
          have hfoldnp : pathbuf_to_lowercase np
              = pathbuf_to_lowercase (FsPath.pushAll base r.segs) := by
            have hh := hkeyfold P false hPfold
            rw [hlk] at hh
            exact hh
          rw [h1]
          dsimp only
          obtain ⟨t, ht, htsub, hcapins⟩ := insert_entries c2 P (by omega)
          rw [hPfold] at ht
          have hK2ne : pathbuf_to_lowercase par ≠ pathbuf_to_lowercase np := by
            rw [hfoldnp]
            exact Ne.symm hK12
          obtain ⟨t2, ht2, ht2sub, -⟩ := insert_entries2 (Cache.insert c2 P) np
            (pathbuf_to_lowercase par) P t ht (by rw [hcapins]; omega) hK2ne
          have hfind3 : Cache.find? (Cache.insert (Cache.insert c2 P) np)
              (pathbuf_to_lowercase (FsPath.pushAll base r.segs)) = some np := by
            rw [← hfoldnp]
            exact find?_insert_self _ np (by rw [hcapins]; omega)
          rcases hmnp : fs.metadata np with e2 | m2b
          · have hg3 := get_of_find_some_err fs (Cache.insert (Cache.insert c2 P) np)
              _ np e2 hfind3 hmnp
            have hb1 : (pathbuf_to_lowercase np
                != pathbuf_to_lowercase (FsPath.pushAll base r.segs)) = false := by
              simp [hfoldnp]
            have hb2 : (pathbuf_to_lowercase par
                != pathbuf_to_lowercase (FsPath.pushAll base r.segs)) = true := by
              simp [Ne.symm hK12]
            have herase : Cache.eraseKey (Cache.insert (Cache.insert c2 P) np).entries
                (pathbuf_to_lowercase (FsPath.pushAll base r.segs))
                = (pathbuf_to_lowercase par, P)
                  :: Cache.eraseKey t2 (pathbuf_to_lowercase (FsPath.pushAll base r.segs)) := by
              rw [ht2]
              simp [Cache.eraseKey, List.filter_cons, hb1, hb2]
            have hfindp : Cache.find? ⟨(Cache.insert (Cache.insert c2 P) np).cap,
                Cache.eraseKey (Cache.insert (Cache.insert c2 P) np).entries
                  (pathbuf_to_lowercase (FsPath.pushAll base r.segs))⟩
                (pathbuf_to_lowercase par) = some P := by
              rw [find?_entries]
              dsimp only
              rw [herase]
              exact find?_cons_self _ _ _ _
            generalize hC5 : (⟨(Cache.insert (Cache.insert c2 P) np).cap,
                Cache.eraseKey (Cache.insert (Cache.insert c2 P) np).entries
                  (pathbuf_to_lowercase (FsPath.pushAll base r.segs))⟩ : Cache) = C5
            rw [hC5] at hg3 hfindp
            rcases hmp : fs.metadata P with e3 | m3
            · have hgp2 := get_of_find_some_err fs C5 par P e3 hfindp hmp
              have hplk2 : parentLookup fs C5 par
                  = (par, false, ⟨C5.cap,
                      Cache.eraseKey C5.entries (pathbuf_to_lowercase par)⟩) := by
                simp [parentLookup, hgp2, hpexf]
              have h2 := resolve_walk_branch2 fs base r
                (Cache.insert (Cache.insert c2 P) np) C5 _ par par hroot htext hpar hg3
                hexf hlen hplk2
              rw [h2]
              dsimp only
              exact hfstA _
            · have hgp2 := get_of_find_some_ok fs C5 par P m3 hfindp hmp
              have hplk2 : parentLookup fs C5 par
                  = (P, true, ⟨C5.cap, (pathbuf_to_lowercase par, P)
                      :: Cache.eraseKey C5.entries (pathbuf_to_lowercase par)⟩) := by
                simp [parentLookup, hgp2]
              have hlknf : lookup fs P (Seg.text str) true = (np, false) := by
                rcases hm4 : fs.metadata (FsPath.push P (Seg.text str)) with e4 | m4
                · by_cases he4 : e4 = ErrKind.notFound
                  · subst he4
                    rw [← lookup_notFound_skip fs P (Seg.text str) hm4]
                    exact hlk
                  · have hbad : lookup fs P (Seg.text str) false
                        = (FsPath.push P (Seg.text str), true) := by
                      simp [lookup, hm4, he4]
                    rw [hlk] at hbad
                    have h5 := congrArg Prod.snd hbad
                    simp at h5
                · have hlkok : lookup fs P (Seg.text str) false
                      = (FsPath.push P (Seg.text str), false) := by
                    simp [lookup, hm4]
                  rw [hlk] at hlkok
                  have hnp := congrArg Prod.fst hlkok
                  dsimp only at hnp
                  rw [hnp, hm4] at hmnp
                  simp at hmnp
              have h2 := resolve_parent_branch2 fs base r
                (Cache.insert (Cache.insert c2 P) np) C5 _ par P (Seg.text str) hroot
                htext hpar hg3 hexf hlen hplk2 hlast
              rw [hlknf] at h2
              dsimp only at h2
              rw [if_neg (by simp)] at h2
              rw [h2]
          · have hg3 := get_of_find_some_ok fs (Cache.insert (Cache.insert c2 P) np)
              _ np m2b hfind3 hmnp
            rw [resolve_hit fs base r (Cache.insert (Cache.insert c2 P) np) _ par np
              m2b hroot htext hpar hg3]

/-- C7 witness: idempotence at a concrete resolution that does not reach a
late-terminal root walk. -/
theorem resolve_idempotent_unless_late_terminal_inst :
    (resolve fsParent (pathOf ["b"]) ⟨0, [Seg.text "d", Seg.text "f"]⟩ true
        (resolve fsParent (pathOf ["b"]) ⟨0, [Seg.text "d", Seg.text "f"]⟩ true
          cacheParent).2).1
      = (resolve fsParent (pathOf ["b"]) ⟨0, [Seg.text "d", Seg.text "f"]⟩ true
          cacheParent).1 :=
  resolve_idempotent_unless_late_terminal fsParent (pathOf ["b"])
    ⟨0, [Seg.text "d", Seg.text "f"]⟩ cacheParent true
    (by
      intro kv hkv
      simp only [cacheParent, List.mem_singleton] at hkv
      subst hkv
      rfl)
    (by decide) (by decide)

/-- C10 witness: the fold-preservation claim at a concrete resolution. -/
theorem resolve_preserves_fold_inst :
    pathbuf_to_lowercase (resolve fsParent (pathOf ["b"])
        ⟨0, [Seg.text "d", Seg.text "f"]⟩ true cacheParent).1
      = pathbuf_to_lowercase (FsPath.pushAll (pathOf ["b"])
          (RawPath.mk 0 [Seg.text "d", Seg.text "f"]).segs) :=
  resolve_preserves_fold fsParent (pathOf ["b"]) ⟨0, [Seg.text "d", Seg.text "f"]⟩
    cacheParent
    (by
      intro kv hkv
      simp only [cacheParent, List.mem_singleton] at hkv
      subst hkv
      rfl)
    (by decide)
